import Mathlib

/-!
Verification of the Solana account-metadata synthesis pass
(`src/codegen/solana_accounts/account_management.rs`) and of the Stylus target's
capability table (`src/emit/stylus/target.rs`) of the solang compiler.

The Rust code is shallowly embedded: panicking operations (`unwrap`, `expect`,
out-of-bounds indexing, `unimplemented!`) are modelled by `Option`, with `none`
meaning the compiler aborts.
-/

namespace Solang

/-- Source locations (`solang_parser::pt::Loc`).  Only the variants relevant to the
pass are modelled; `File` stands for the location-carrying variants. -/
inductive Loc where
  | Codegen : Loc
  | File : Nat → Nat → Nat → Loc
deriving DecidableEq, Repr

/-- The struct types the pass mentions (`sema::ast::StructType`). -/
inductive StructType where
  | AccountMeta : StructType
  | AccountInfo : StructType
deriving DecidableEq, Repr

/-- `sema::ast::ArrayLength`; `Fixed` carries a `BigInt`, modelled as `Int`. -/
inductive ArrayLength where
  | Fixed : Int → ArrayLength
  | Dynamic : ArrayLength
deriving DecidableEq, Repr

/-- The fragment of `sema::ast::Type` used by the pass. -/
inductive Ty where
  | Address : Bool → Ty
  | Uint : Nat → Ty
  | Ref : Ty → Ty
  | Struct : StructType → Ty
  | Array : Ty → List ArrayLength → Ty
deriving DecidableEq, Repr

/-- The builtin kinds used by the pass (`codegen::Builtin`). -/
inductive Builtin where
  | Accounts : Builtin
deriving DecidableEq, Repr

/-- The fragment of `codegen::Expression` constructed or inspected by the pass.
`Other` stands for every remaining expression variant (the pass treats the
`address` operand it copies as an opaque expression tree). -/
inductive Expression where
  | NumberLiteral (loc : Loc) (ty : Ty) (value : Int) : Expression
  | BoolLiteral (loc : Loc) (value : Bool) : Expression
  | GetRef (loc : Loc) (ty : Ty) (expr : Expression) : Expression
  | StructMember (loc : Loc) (ty : Ty) (expr : Expression) (member : Nat) : Expression
  | Load (loc : Loc) (ty : Ty) (expr : Expression) : Expression
  | Builtin (loc : Loc) (tys : List Ty) (kind : Builtin) (args : List Expression) : Expression
  | Subscript (loc : Loc) (ty : Ty) (array_ty : Ty) (expr : Expression)
      (index : Expression) : Expression
  | ArrayLiteral (loc : Loc) (ty : Ty) (dimensions : List Nat)
      (values : List Expression) : Expression
  | StructLiteral (loc : Loc) (ty : Ty) (values : List Expression) : Expression
  | Other (tag : Nat) : Expression

/-- One entry of the Solana account table of a function: the signer/writer
flags of a required account (the account record of `sema::solana_accounts`). -/
structure SolanaAccount where
  is_signer : Bool
  is_writer : Bool
deriving DecidableEq, Repr

/-- Modelled from the spec: `AccountSpec` is a per-function ordered mapping from
account name to flags (an `IndexMap<String, SolanaAccount>` in the source, whose
defining module is not part of the analysed sources).  The insertion order is the
list order. -/
abbrev AccountSpec := List (String × SolanaAccount)

/-- `IndexMap::get_index_of`: position of a key in insertion order. -/
def get_index_of (spec : AccountSpec) (name : String) : Option Nat :=
  spec.findIdx? (fun p => p.1 = name)

/-- Modelled from the spec: the sentinel account name `DataAccount`
(`sema::solana_accounts::BuiltinAccounts::DataAccount`, defined outside the
analysed sources); it resolves to the address already supplied to the call. -/
def dataAccountName : String := "DataAccount"

/-- Modelled from the spec: the sentinel account name `SystemAccount`
(`sema::solana_accounts::BuiltinAccounts::SystemAccount`, defined outside the
analysed sources); it resolves to the zero address constant. -/
def systemAccountName : String := "SystemAccount"

/-- The fragment of `sema::ast::Function` the pass reads: its ordered account
spec and whether it is a constructor. -/
structure Function where
  solana_accounts : AccountSpec
  is_constructor : Bool
deriving DecidableEq, Repr

/-- The fragment of `codegen::cfg::Instr` the pass rewrites.  `Constructor`
carries the optional already-resolved account list, the optional raw address
expression and the callee constructor's identity; its remaining fields (modelled
from the spec, the `..` of the source pattern) are bundled into `rest`.
`Other` stands for every remaining instruction variant, which the pass leaves
untouched. -/
inductive Instr where
  | Constructor (accounts : Option Expression) (address : Option Expression)
      (constructor_no : Option Nat) (rest : Nat) : Instr
  | AccountAccess (loc : Loc) (name : String) (var_no : Nat) : Instr
  | Set (loc : Loc) (res : Nat) (expr : Expression) : Instr
  | Other (tag : Nat) : Instr

/-- A basic block: an ordered instruction sequence and the successor block
indices (the source computes `edges()` from the block's terminator; the spec's
data model records them as part of the block). -/
structure BasicBlock where
  instr : List Instr
  edges : List Nat

/-- `codegen::cfg::ControlFlowGraph`: a name and an ordered block sequence. -/
structure ControlFlowGraph where
  name : String
  blocks : List BasicBlock

/-- Modelled from the spec: the dispatch CFG name recognised by exact string
match (`codegen::dispatch::solana::SOLANA_DISPATCH_CFG_NAME`, defined outside
the analysed sources). -/
def SOLANA_DISPATCH_CFG_NAME : String := "solang_dispatch"

/-- The fragment of `sema::ast::Contract` the pass reads: the contract's
function numbers, the function-number → CFG-number map (`all_functions`,
modelled as an association list) and the CFG list. -/
structure Contract where
  functions : List Nat
  all_functions : List (Nat × Nat)
  cfg : List ControlFlowGraph

/-- The fragment of `sema::ast::Namespace` the pass reads. -/
structure Namespace where
  contracts : List Contract
  functions : List Function

/-- `account_meta_literal` of `account_management.rs`: an AccountMeta struct
literal with field order address, is-writable, is-signer. -/
def account_meta_literal (address : Expression) (is_signer : Bool) (is_writer : Bool) :
    Expression :=
  Expression.StructLiteral Loc.Codegen (Ty.Struct StructType.AccountMeta)
    [address,
     Expression.BoolLiteral Loc.Codegen is_writer,
     Expression.BoolLiteral Loc.Codegen is_signer]

/-- `index_accounts_vector` of `account_management.rs`: the expression
`tx.accounts[index]`. -/
def index_accounts_vector (index : Nat) : Expression :=
  let accounts_vector : Expression :=
    Expression.Builtin Loc.Codegen
      [Ty.Array (Ty.Struct StructType.AccountInfo) [ArrayLength.Dynamic]]
      Builtin.Accounts []
  Expression.Subscript Loc.Codegen
    (Ty.Ref (Ty.Struct StructType.AccountInfo))
    (Ty.Array (Ty.Struct StructType.AccountInfo) [ArrayLength.Dynamic])
    accounts_vector
    (Expression.NumberLiteral Loc.Codegen (Ty.Uint 32) (index : Int))

/-- `retrieve_key_from_account_info` of `account_management.rs`: the address is
member 0 of the AccountInfo struct. -/
def retrieve_key_from_account_info (account_info : Expression) : Expression :=
  let address := Expression.StructMember Loc.Codegen
    (Ty.Ref (Ty.Ref (Ty.Address false))) account_info 0
  Expression.Load Loc.Codegen (Ty.Ref (Ty.Address false)) address

/-- `accounts_vector_key_at_index` of `account_management.rs`:
`tx.accounts[index].key`. -/
def accounts_vector_key_at_index (index : Nat) : Expression :=
  let payer_info := index_accounts_vector index
  retrieve_key_from_account_info payer_info

/-- One iteration of the loop over the callee constructor's account spec in
`process_instruction`: synthesize the AccountMeta expression for one spec entry.
`none` models a compiler abort (`unwrap` on a missing address or on a failed
`get_index_of`, or out-of-range indexing of `functions`). -/
def synthesize_meta (functions : List Function) (ast_no : Nat)
    (address : Option Expression) (entry : String × SolanaAccount) : Option Expression :=
  let name := entry.1
  let account := entry.2
  if name = dataAccountName then
    match address with
    | none => none
    | some addr =>
      let address_ref := Expression.GetRef Loc.Codegen (Ty.Ref (Ty.Address false)) addr
      some (account_meta_literal address_ref account.is_signer account.is_writer)
  else if name = systemAccountName then
    let system_address := Expression.NumberLiteral Loc.Codegen (Ty.Address false) 0
    let system_ref := Expression.GetRef Loc.Codegen (Ty.Ref (Ty.Address false)) system_address
    some (account_meta_literal system_ref false false)
  else
    match functions[ast_no]? with
    | none => none
    | some caller =>
      match get_index_of caller.solana_accounts name with
      | none => none
      | some account_index =>
        some (account_meta_literal (accounts_vector_key_at_index account_index)
          account.is_signer account.is_writer)

/-- The loop of `process_instruction` over the callee constructor's account
spec, collecting the synthesized AccountMeta expressions in spec order. -/
def collect_metas (functions : List Function) (ast_no : Nat)
    (address : Option Expression) : AccountSpec → Option (List Expression)
  | [] => some []
  | entry :: entries =>
    match synthesize_meta functions ast_no address entry with
    | none => none
    | some m => (collect_metas functions ast_no address entries).map (fun l => m :: l)

/-- The array literal wrapping the synthesized AccountMeta list
(`metas_vector` in `process_instruction`). -/
def metas_vector (account_metas : List Expression) : Expression :=
  Expression.ArrayLiteral Loc.Codegen
    (Ty.Array (Ty.Struct StructType.AccountMeta)
      [ArrayLength.Fixed (account_metas.length : Int)])
    [account_metas.length]
    account_metas

/-- `process_instruction` of `account_management.rs`.  A `Constructor` whose
accounts are unresolved and whose callee constructor is known gets its
AccountMeta array synthesized (address cleared, accounts filled); an
`AccountAccess` is rewritten into a `Set` of the indexed accounts vector; every
other instruction is returned untouched.  `none` models a compiler abort. -/
def process_instruction (instr : Instr) (functions : List Function) (ast_no : Nat) :
    Option Instr :=
  match instr with
  | Instr.Constructor accounts address constructor_no rest =>
    match accounts, constructor_no with
    | some a, cno => some (Instr.Constructor (some a) address cno rest)
    | none, none => some (Instr.Constructor none address none rest)
    | none, some cno =>
      match functions[cno]? with
      | none => none
      | some constructor_func =>
        match collect_metas functions ast_no address constructor_func.solana_accounts with
        | none => none
        | some account_metas =>
          some (Instr.Constructor (some (metas_vector account_metas)) none (some cno) rest)
  | Instr.AccountAccess loc name var_no =>
    match functions[ast_no]? with
    | none => none
    | some f =>
      match get_index_of f.solana_accounts name with
      | none => none
      | some account_index =>
        some (Instr.Set loc var_no (index_accounts_vector account_index))
  | Instr.Set loc res expr => some (Instr.Set loc res expr)
  | Instr.Other tag => some (Instr.Other tag)

/-- The per-block instruction loop of `traverse_cfg`: process every instruction
of a block in order (`none` models a compiler abort). -/
def process_instrs (functions : List Function) (ast_no : Nat) :
    List Instr → Option (List Instr)
  | [] => some []
  | i :: is =>
    match process_instruction i functions ast_no with
    | none => none
    | some i' => (process_instrs functions ast_no is).map (fun l => i' :: l)

/-- The edge loop of `traverse_cfg`: append every not-yet-visited successor to
the work queue and mark it visited. -/
def push_edges (edges : List Nat) (queue : List Nat) (visited : Finset Nat) :
    List Nat × Finset Nat :=
  edges.foldl
    (fun qv edge => if edge ∈ qv.2 then qv else (qv.1 ++ [edge], insert edge qv.2))
    (queue, visited)

/-- Characterisation of `push_edges`: it appends a duplicate-free list of fresh
edges to the queue and adds exactly those to the visited set. -/
lemma push_edges_spec (edges queue : List Nat) (visited : Finset Nat) :
    ∃ extra : List Nat,
      push_edges edges queue visited = (queue ++ extra, visited ∪ extra.toFinset) ∧
      extra.Nodup ∧ (∀ x ∈ extra, x ∈ edges ∧ x ∉ visited) ∧
      (∀ e ∈ edges, e ∈ visited ∨ e ∈ extra) := by
  induction edges generalizing queue visited with
  | nil =>
    refine ⟨[], ?_, ?_, ?_, ?_⟩ <;> simp [push_edges]
  | cons e es ih =>
    by_cases he : e ∈ visited
    · obtain ⟨extra, heq, hnd, hmem, hcov⟩ := ih queue visited
      refine ⟨extra, ?_, hnd, ?_, ?_⟩
      · simpa [push_edges, he] using heq
      · intro x hx
        exact ⟨List.mem_cons_of_mem _ (hmem x hx).1, (hmem x hx).2⟩
      · intro x hx
        rcases List.mem_cons.mp hx with rfl | hx
        · exact Or.inl he
        · exact hcov x hx
    · obtain ⟨extra, heq, hnd, hmem, hcov⟩ := ih (queue ++ [e]) (insert e visited)
      refine ⟨e :: extra, ?_, ?_, ?_, ?_⟩
      · have h1 : push_edges (e :: es) queue visited
            = push_edges es (queue ++ [e]) (insert e visited) := by
          simp [push_edges, he]
        rw [h1, heq]
        simp only [Prod.mk.injEq]
        constructor
        · simp
        · ext x
          simp only [Finset.mem_union, Finset.mem_insert, List.toFinset_cons,
            List.mem_toFinset]
          tauto
      · refine List.nodup_cons.mpr ⟨?_, hnd⟩
        intro hcon
        exact ((hmem e hcon).2) (Finset.mem_insert_self e visited)
      · intro x hx
        rcases List.mem_cons.mp hx with rfl | hx
        · exact ⟨List.mem_cons_self _ _, he⟩
        · refine ⟨List.mem_cons_of_mem _ (hmem x hx).1, ?_⟩
          intro hv
          exact (hmem x hx).2 (Finset.mem_insert_of_mem hv)
      · intro x hx
        rcases List.mem_cons.mp hx with rfl | hx
        · exact Or.inr (List.mem_cons_self _ _)
        · rcases hcov x hx with hv | hv
          · rcases Finset.mem_insert.mp hv with rfl | hv
            · exact Or.inr (List.mem_cons_self _ _)
            · exact Or.inl hv
          · exact Or.inr (List.mem_cons_of_mem _ hv)

/-- `push_edges` does not increase the termination measure
(unvisited portion of the universe plus queue length). -/
lemma push_edges_measure (U : Finset Nat) (edges queue : List Nat) (visited : Finset Nat)
    (hE : ∀ e ∈ edges, e ∈ U) :
    (U \ (push_edges edges queue visited).2).card + (push_edges edges queue visited).1.length
      ≤ (U \ visited).card + queue.length := by
  obtain ⟨extra, heq, hnd, hmem, _⟩ := push_edges_spec edges queue visited
  rw [heq]
  have hsub : extra.toFinset ⊆ U \ visited := by
    intro x hx
    rw [List.mem_toFinset] at hx
    exact Finset.mem_sdiff.mpr ⟨hE x (hmem x hx).1, (hmem x hx).2⟩
  have hdiff : U \ (visited ∪ extra.toFinset) = (U \ visited) \ extra.toFinset := by
    ext x
    simp only [Finset.mem_sdiff, Finset.mem_union]
    tauto
  have hcard : (U \ (visited ∪ extra.toFinset)).card
      = (U \ visited).card - extra.toFinset.card := by
    rw [hdiff, Finset.card_sdiff hsub]
  have hlen : extra.toFinset.card = extra.length := List.toFinset_card_of_nodup hnd
  have hle : extra.toFinset.card ≤ (U \ visited).card := Finset.card_le_card hsub
  simp only [hcard, List.length_append, hlen] at *
  omega

/-- All successor indices occurring in a block list, together with the entry
block 0: the universe the visited set can grow into. -/
def edgeUniverse (blocks : List BasicBlock) : Finset Nat :=
  insert 0 ((blocks.map BasicBlock.edges).flatten.toFinset)

/-- Setting a list index to the element already there is a no-op. -/
lemma list_set_self {α : Type} (xs : List α) (n : Nat) (x : α)
    (h : xs[n]? = some x) : xs.set n x = xs := by
  induction xs generalizing n with
  | nil => simp at h
  | cons y ys ih =>
    cases n with
    | zero =>
      simp only [List.getElem?_cons_zero, Option.some.injEq] at h
      simp [h]
    | succ m =>
      simp only [List.getElem?_cons_succ] at h
      simp [ih m h]

/-- Rewriting the instructions of one block leaves the edge universe
unchanged. -/
lemma edgeUniverse_set (blocks : List BasicBlock) (n : Nat) (b : BasicBlock)
    (l : List Instr) (h : blocks[n]? = some b) :
    edgeUniverse (blocks.set n { instr := l, edges := b.edges }) = edgeUniverse blocks := by
  unfold edgeUniverse
  have hmap : (blocks.set n { instr := l, edges := b.edges }).map BasicBlock.edges
      = (blocks.map BasicBlock.edges).set n b.edges := by
    clear h
    induction blocks generalizing n with
    | nil => simp
    | cons x xs ih =>
      cases n with
      | zero => simp
      | succ m => simp [ih m]
  have hself : (blocks.map BasicBlock.edges).set n b.edges = blocks.map BasicBlock.edges := by
    apply list_set_self
    rw [List.getElem?_map, h]
    rfl
  rw [hmap, hself]

/-- Membership of successors of a present block in the edge universe. -/
lemma edges_subset_universe {blocks : List BasicBlock} {n : Nat} {b : BasicBlock}
    (h : blocks[n]? = some b) : ∀ e ∈ b.edges, e ∈ edgeUniverse blocks := by
  intro e he
  unfold edgeUniverse
  apply Finset.mem_insert_of_mem
  rw [List.mem_toFinset, List.mem_flatten]
  exact ⟨b.edges, List.mem_map_of_mem BasicBlock.edges (List.getElem?_mem h), he⟩

/-- The breadth-first work loop of `traverse_cfg`: pop a block index, process
its instructions, push its unvisited successors.  `trace` records the visited
block indices in pop order (ghost instrumentation; the source does not keep it).
`none` models a compiler abort inside `process_instruction` (an out-of-range
pop cannot arise from the source, where edges always denote existing blocks,
and is likewise modelled as an abort). -/
def traverse_blocks (functions : List Function) (ast_no : Nat)
    (blocks : List BasicBlock) (queue : List Nat) (visited : Finset Nat)
    (trace : List Nat) : Option (List BasicBlock × List Nat) :=
  match queue with
  | [] => some (blocks, trace)
  | cur_block :: rest =>
    match hb : blocks[cur_block]? with
    | none => none
    | some blk =>
      match process_instrs functions ast_no blk.instr with
      | none => none
      | some new_instrs =>
        let blocks' := blocks.set cur_block { instr := new_instrs, edges := blk.edges }
        let qv := push_edges blk.edges rest visited
        traverse_blocks functions ast_no blocks' qv.1 qv.2 (trace ++ [cur_block])
termination_by (edgeUniverse blocks \ visited).card + queue.length
decreasing_by
  have hU : edgeUniverse (blocks.set cur_block { instr := new_instrs, edges := blk.edges })
      = edgeUniverse blocks := edgeUniverse_set blocks cur_block blk new_instrs hb
  have hmeas := push_edges_measure (edgeUniverse blocks) blk.edges rest visited
    (edges_subset_universe hb)
  rw [hU]
  simp only [List.length_cons]
  omega

/-- Unfolding lemma for `traverse_blocks` on an empty work queue. -/
lemma traverse_blocks_nil (functions : List Function) (ast_no : Nat)
    (blocks : List BasicBlock) (visited : Finset Nat) (trace : List Nat) :
    traverse_blocks functions ast_no blocks [] visited trace = some (blocks, trace) := by
  rw [traverse_blocks]

/-- Unfolding lemma for `traverse_blocks` on a non-empty work queue. -/
lemma traverse_blocks_cons (functions : List Function) (ast_no : Nat)
    (blocks : List BasicBlock) (cur_block : Nat) (rest : List Nat)
    (visited : Finset Nat) (trace : List Nat) :
    traverse_blocks functions ast_no blocks (cur_block :: rest) visited trace =
      match blocks[cur_block]? with
      | none => none
      | some blk =>
        match process_instrs functions ast_no blk.instr with
        | none => none
        | some new_instrs =>
          traverse_blocks functions ast_no
            (blocks.set cur_block { instr := new_instrs, edges := blk.edges })
            (push_edges blk.edges rest visited).1
            (push_edges blk.edges rest visited).2
            (trace ++ [cur_block]) := by
  rw [traverse_blocks]
  cases hx : blocks[cur_block]? with
  | none => simp
  | some blk => simp

/-- `traverse_cfg` of `account_management.rs`: breadth-first traversal of a CFG
from block 0, processing every instruction of every visited block.  An empty
CFG is returned untouched. -/
def traverse_cfg (cfg : ControlFlowGraph) (functions : List Function) (ast_no : Nat) :
    Option ControlFlowGraph :=
  if cfg.blocks.isEmpty then some cfg
  else
    match traverse_blocks functions ast_no cfg.blocks [0] {0} [] with
    | none => none
    | some (blocks, _) => some { cfg with blocks := blocks }

/-- The visit order of `traverse_cfg`: the block indices popped from the work
queue, in order (empty for an empty CFG, which is skipped). -/
def traverse_trace (cfg : ControlFlowGraph) (functions : List Function) (ast_no : Nat) :
    Option (List Nat) :=
  if cfg.blocks.isEmpty then some []
  else
    match traverse_blocks functions ast_no cfg.blocks [0] {0} [] with
    | none => none
    | some (_, trace) => some trace

/-- `HashMap::get` on the `all_functions` map (function number → CFG number). -/
def lookup_all_functions (all_functions : List (Nat × Nat)) (function_no : Nat) :
    Option Nat :=
  (all_functions.find? (fun p => p.1 = function_no)).map (fun p => p.2)

/-- One iteration of the function loop of `manage_contract_accounts`: record the
constructor if this function is one, then traverse its CFG.  The state is the
last constructor seen so far and the current CFG list. -/
def manage_step (functions : List Function) (all_functions : List (Nat × Nat))
    (st : Option Nat × List ControlFlowGraph) (function_no : Nat) :
    Option (Option Nat × List ControlFlowGraph) := do
  let f ← functions[function_no]?
  let constructor_no := if f.is_constructor then some function_no else st.1
  let cfg_no ← lookup_all_functions all_functions function_no
  let cfg ← st.2[cfg_no]?
  let cfg2 ← traverse_cfg cfg functions function_no
  some (constructor_no, st.2.set cfg_no cfg2)

/-- `manage_contract_accounts` of `account_management.rs`: traverse the CFG of
every function of the contract, then, if the contract has a constructor,
additionally traverse the dispatch CFG (found by exact name match) seeded with
that constructor.  `none` models a compiler abort (a failed `unwrap`/`expect`
or out-of-range indexing). -/
def manage_contract_accounts (contract_no : Nat) (ns : Namespace) : Option Namespace := do
  let contract ← ns.contracts[contract_no]?
  let st ← contract.functions.foldlM (manage_step ns.functions contract.all_functions)
    (none, contract.cfg)
  match st.1 with
  | none =>
    some { ns with
      contracts := ns.contracts.set contract_no { contract with cfg := st.2 } }
  | some constructor => do
    let dispatch_no ← st.2.findIdx? (fun cfg => cfg.name = SOLANA_DISPATCH_CFG_NAME)
    let dispatch ← st.2[dispatch_no]?
    let dispatch2 ← traverse_cfg dispatch ns.functions constructor
    some { ns with
      contracts := ns.contracts.set contract_no
        { contract with cfg := st.2.set dispatch_no dispatch2 } }

/-- `collect_metas` produces one AccountMeta per spec entry, positionally. -/
lemma collect_metas_spec {functions : List Function} {ast_no : Nat}
    {address : Option Expression} :
    ∀ {entries : AccountSpec} {metas : List Expression},
      collect_metas functions ast_no address entries = some metas →
      metas.length = entries.length ∧
      ∀ (k : Nat) (e : String × SolanaAccount), entries[k]? = some e →
        ∃ m, synthesize_meta functions ast_no address e = some m ∧ metas[k]? = some m := by
  intro entries
  induction entries with
  | nil =>
    intro metas h
    simp only [collect_metas, Option.some.injEq] at h
    subst h
    refine ⟨rfl, ?_⟩
    intro k e h
    simp at h
  | cons e es ih =>
    intro metas h
    simp only [collect_metas] at h
    cases hm : synthesize_meta functions ast_no address e with
    | none => rw [hm] at h; simp at h
    | some m =>
      rw [hm] at h
      cases hc : collect_metas functions ast_no address es with
      | none => rw [hc] at h; simp at h
      | some ms =>
        rw [hc] at h
        simp only [Option.map_some', Option.some.injEq] at h
        subst h
        obtain ⟨hlen, hget⟩ := ih hc
        refine ⟨by simp [hlen], ?_⟩
        intro k entry hk
        cases k with
        | zero =>
          simp only [List.getElem?_cons_zero, Option.some.injEq] at hk
          subst hk
          exact ⟨m, hm, by simp⟩
        | succ n =>
          simp only [List.getElem?_cons_succ] at hk ⊢
          exact hget n entry hk

/-- `collect_metas` succeeds exactly when every entry can be synthesized. -/
lemma collect_metas_isSome {functions : List Function} {ast_no : Nat}
    {address : Option Expression} (entries : AccountSpec) :
    (collect_metas functions ast_no address entries).isSome ↔
      ∀ e ∈ entries, (synthesize_meta functions ast_no address e).isSome := by
  induction entries with
  | nil => simp [collect_metas]
  | cons e es ih =>
    simp only [collect_metas]
    cases hm : synthesize_meta functions ast_no address e with
    | none =>
      simp only [Option.isSome_none, Bool.false_eq_true, false_iff]
      intro hall
      have := hall e (List.mem_cons_self e es)
      rw [hm] at this
      simp at this
    | some m =>
      cases hc : collect_metas functions ast_no address es with
      | none =>
        rw [hc] at ih
        simp only [Option.map_none', Option.isSome_none, Bool.false_eq_true, false_iff] at ih ⊢
        intro hall
        exact ih (fun x hx => hall x (List.mem_cons_of_mem e hx))
      | some ms =>
        rw [hc] at ih
        simp only [Option.map_some', Option.isSome_some, true_iff] at ih ⊢
        intro x hx
        rcases List.mem_cons.mp hx with rfl | hx
        · rw [hm]; rfl
        · exact ih x hx

/-- `process_instrs` rewrites the instructions of a block positionally. -/
lemma process_instrs_spec {functions : List Function} {ast_no : Nat} :
    ∀ {l l' : List Instr}, process_instrs functions ast_no l = some l' →
      l'.length = l.length ∧
      ∀ (k : Nat) (i : Instr), l[k]? = some i →
        ∃ i', process_instruction i functions ast_no = some i' ∧ l'[k]? = some i' := by
  intro l
  induction l with
  | nil =>
    intro l' h
    simp only [process_instrs, Option.some.injEq] at h
    subst h
    refine ⟨rfl, ?_⟩
    intro k i h
    simp at h
  | cons i is ih =>
    intro l' h
    simp only [process_instrs] at h
    cases hp : process_instruction i functions ast_no with
    | none => rw [hp] at h; simp at h
    | some i' =>
      rw [hp] at h
      cases hr : process_instrs functions ast_no is with
      | none => rw [hr] at h; simp at h
      | some is' =>
        rw [hr] at h
        simp only [Option.map_some', Option.some.injEq] at h
        subst h
        obtain ⟨hlen, hget⟩ := ih hr
        refine ⟨by simp [hlen], ?_⟩
        intro k j hk
        cases k with
        | zero =>
          simp only [List.getElem?_cons_zero, Option.some.injEq] at hk
          subst hk
          exact ⟨i', hp, by simp⟩
        | succ n =>
          simp only [List.getElem?_cons_succ] at hk ⊢
          exact hget n j hk

/-- `process_instrs` succeeds exactly when every instruction is processable. -/
lemma process_instrs_isSome {functions : List Function} {ast_no : Nat} (l : List Instr) :
    (process_instrs functions ast_no l).isSome ↔
      ∀ i ∈ l, (process_instruction i functions ast_no).isSome := by
  induction l with
  | nil => simp [process_instrs]
  | cons i is ih =>
    simp only [process_instrs]
    cases hp : process_instruction i functions ast_no with
    | none =>
      simp only [Option.isSome_none, Bool.false_eq_true, false_iff]
      intro hall
      have := hall i (List.mem_cons_self i is)
      rw [hp] at this
      simp at this
    | some i' =>
      cases hr : process_instrs functions ast_no is with
      | none =>
        rw [hr] at ih
        simp only [Option.map_none', Option.isSome_none, Bool.false_eq_true, false_iff] at ih ⊢
        intro hall
        exact ih (fun x hx => hall x (List.mem_cons_of_mem i hx))
      | some is' =>
        rw [hr] at ih
        simp only [Option.map_some', Option.isSome_some, true_iff] at ih ⊢
        intro x hx
        rcases List.mem_cons.mp hx with rfl | hx
        · rw [hp]; rfl
        · exact ih x hx

/-- The output of `process_instruction` is a fixed point: processing it again
(under any function table and any current function) returns it unchanged.
This is the instruction-level idempotence of the pass. -/
lemma process_instruction_stable {i i' : Instr} {functions : List Function} {ast_no : Nat}
    (h : process_instruction i functions ast_no = some i')
    (functions' : List Function) (ast_no' : Nat) :
    process_instruction i' functions' ast_no' = some i' := by
  unfold process_instruction at h
  repeat' split at h
  all_goals first
    | (simp only [Option.some.injEq] at h; subst h; rfl)
    | (simp at h)

/-- `process_instruction` never outputs an `AccountAccess` instruction. -/
lemma process_instruction_no_account_access {i i' : Instr} {functions : List Function}
    {ast_no : Nat} (h : process_instruction i functions ast_no = some i') :
    ∀ loc name var_no, i' ≠ Instr.AccountAccess loc name var_no := by
  intro loc name var_no
  unfold process_instruction at h
  repeat' split at h
  all_goals first
    | (simp only [Option.some.injEq] at h; subst h; simp)
    | (simp at h)

/-- Block-level idempotence: a processed instruction list is a fixed point. -/
lemma process_instrs_stable {l l' : List Instr} {functions : List Function} {ast_no : Nat}
    (h : process_instrs functions ast_no l = some l')
    (functions' : List Function) (ast_no' : Nat) :
    process_instrs functions' ast_no' l' = some l' := by
  induction l generalizing l' with
  | nil =>
    simp only [process_instrs, Option.some.injEq] at h
    subst h
    rfl
  | cons i is ih =>
    simp only [process_instrs] at h
    cases hp : process_instruction i functions ast_no with
    | none => rw [hp] at h; simp at h
    | some i' =>
      rw [hp] at h
      cases hr : process_instrs functions ast_no is with
      | none => rw [hr] at h; simp at h
      | some is' =>
        rw [hr] at h
        simp only [Option.map_some', Option.some.injEq] at h
        subst h
        have hstep := process_instruction_stable hp functions' ast_no'
        have hrest := ih hr
        simp only [process_instrs, hstep, hrest, Option.map_some']

/-- The successor relation between block indices of a block list. -/
def cfg_step (blocks : List BasicBlock) (i j : Nat) : Prop :=
  ∃ b, blocks[i]? = some b ∧ j ∈ b.edges

/-- A block index is reachable when a chain of successor edges leads to it from
the entry block 0 and it denotes an existing block. -/
def reachable (blocks : List BasicBlock) (j : Nat) : Prop :=
  Relation.ReflTransGen (cfg_step blocks) 0 j ∧ j < blocks.length

lemma getElem?_some_lt {α : Type} {l : List α} {n : Nat} {a : α}
    (h : l[n]? = some a) : n < l.length := by
  by_contra hc
  push_neg at hc
  rw [List.getElem?_eq_none hc] at h
  simp at h

/-- Rewriting the instructions of one block does not change the successor
relation. -/
lemma cfg_step_set (blocks : List BasicBlock) (n : Nat) (b : BasicBlock)
    (l : List Instr) (h : blocks[n]? = some b) :
    cfg_step (blocks.set n { instr := l, edges := b.edges }) = cfg_step blocks := by
  funext i j
  apply propext
  unfold cfg_step
  by_cases hin : n = i
  · subst hin
    rw [List.getElem?_set_self (getElem?_some_lt h), h]
    simp
  · rw [List.getElem?_set_ne hin]

/-- Master invariant lemma for the breadth-first work loop: assuming the
standard queue/visited invariants, a successful run yields a duplicate-free
visit order consisting only of existing blocks reachable from block 0, closed
under successor edges, containing every pending queue entry; blocks outside the
visit order are untouched, blocks newly visited are processed exactly once, and
previously visited blocks stay as they were. -/
lemma traverse_blocks_master (functions : List Function) (ast_no : Nat) :
    ∀ (blocks : List BasicBlock) (queue : List Nat) (visited : Finset Nat)
      (trace : List Nat) (bs : List BasicBlock) (tr : List Nat),
      traverse_blocks functions ast_no blocks queue visited trace = some (bs, tr) →
      (trace ++ queue).Nodup →
      (∀ x, x ∈ visited ↔ x ∈ trace ++ queue) →
      (∀ i ∈ trace ++ queue, Relation.ReflTransGen (cfg_step blocks) 0 i) →
      (∀ i ∈ trace, ∀ b, blocks[i]? = some b → ∀ e ∈ b.edges, e ∈ visited) →
      (∀ i ∈ trace, i < blocks.length) →
      tr.Nodup ∧
      (∀ i ∈ tr, Relation.ReflTransGen (cfg_step blocks) 0 i) ∧
      (∀ i ∈ tr, i < blocks.length) ∧
      (∀ i ∈ tr, ∀ b, blocks[i]? = some b → ∀ e ∈ b.edges, e ∈ tr) ∧
      (∀ x ∈ trace ++ queue, x ∈ tr) ∧
      (∀ i, i ∉ tr → bs[i]? = blocks[i]?) ∧
      (∀ i ∈ tr, i ∉ trace →
        ∃ b l, blocks[i]? = some b ∧ process_instrs functions ast_no b.instr = some l ∧
          bs[i]? = some { instr := l, edges := b.edges }) ∧
      (∀ i ∈ trace, bs[i]? = blocks[i]?) ∧
      bs.length = blocks.length := by
  intro blocks queue visited trace
  induction blocks, queue, visited, trace using traverse_blocks.induct functions ast_no with
  | case1 blocks visited trace =>
    intro bs tr h h1 h2 h3 h4 h5
    rw [traverse_blocks_nil] at h
    simp only [Option.some.injEq, Prod.mk.injEq] at h
    obtain ⟨rfl, rfl⟩ := h
    simp only [List.append_nil] at h1 h2 h3
    refine ⟨h1, h3, h5, ?_, ?_, ?_, ?_, ?_, rfl⟩
    · intro i hi b hb e he
      exact (h2 e).mp (h4 i hi b hb e he)
    · intro x hx
      simpa using hx
    · intro i _
      rfl
    · intro i hi hni
      exact absurd hi hni
    · intro i _
      rfl
  | case2 blocks visited trace cur_block rest hnone =>
    intro bs tr h h1 h2 h3 h4 h5
    simp [traverse_blocks_cons, hnone] at h
  | case3 blocks visited trace cur_block rest blk hb hpnone =>
    intro bs tr h h1 h2 h3 h4 h5
    simp [traverse_blocks_cons, hb, hpnone] at h
  | case4 blocks visited trace cur_block rest blk hb new_instrs hpi bset qv ih =>
    intro bs tr h h1 h2 h3 h4 h5
    simp only [traverse_blocks_cons, hb, hpi] at h
    unfold qv bset at ih
    obtain ⟨extra, hpe, hext_nd, hext_mem, hext_cov⟩ :=
      push_edges_spec blk.edges rest visited
    have hcur_lt : cur_block < blocks.length := getElem?_some_lt hb
    have hcur_notin_trace : cur_block ∉ trace := by
      intro hcon
      have hdisj := (List.nodup_append.mp h1).2.2
      exact hdisj hcon (List.mem_cons_self _ _)
    have hstep_eq : cfg_step (blocks.set cur_block { instr := new_instrs, edges := blk.edges })
        = cfg_step blocks := cfg_step_set blocks cur_block blk new_instrs hb
    have hset_len : (blocks.set cur_block { instr := new_instrs, edges := blk.edges }).length
        = blocks.length := List.length_set blocks cur_block _
    have hset_ne : ∀ i, i ≠ cur_block →
        (blocks.set cur_block { instr := new_instrs, edges := blk.edges })[i]? = blocks[i]? := by
      intro i hne
      exact List.getElem?_set_ne (fun hcon => hne hcon.symm)
    have hset_self : (blocks.set cur_block
        { instr := new_instrs, edges := blk.edges })[cur_block]?
        = some { instr := new_instrs, edges := blk.edges } :=
      List.getElem?_set_self hcur_lt
    -- the recursive call and its invariants
    simp only [hpe] at h ih
    -- membership in the old visited set, spelled out
    have hvis : ∀ x, x ∈ visited ↔ x ∈ trace ∨ x = cur_block ∨ x ∈ rest := by
      intro x
      rw [h2 x]
      simp
    have hextra_fresh : ∀ x ∈ extra, x ∉ trace ∧ x ≠ cur_block ∧ x ∉ rest := by
      intro x hx
      have := (hext_mem x hx).2
      rw [hvis] at this
      push_neg at this
      exact this
    have inv1 : ((trace ++ [cur_block]) ++ (rest ++ extra)).Nodup := by
      rw [List.append_cons] at h1
      rw [← List.append_assoc]
      rw [List.nodup_append]
      refine ⟨h1, hext_nd, ?_⟩
      intro x hx hx2
      obtain ⟨ht, hc, hr⟩ := hextra_fresh x hx2
      rcases List.mem_append.mp hx with hx | hx
      · rcases List.mem_append.mp hx with hx | hx
        · exact ht hx
        · exact hc (List.mem_singleton.mp hx)
      · exact hr hx
    have inv2 : ∀ x, x ∈ visited ∪ extra.toFinset ↔
        x ∈ (trace ++ [cur_block]) ++ (rest ++ extra) := by
      intro x
      rw [Finset.mem_union, hvis, List.mem_toFinset]
      simp only [List.mem_append, List.mem_singleton]
      tauto
    have inv3 : ∀ i ∈ (trace ++ [cur_block]) ++ (rest ++ extra),
        Relation.ReflTransGen
          (cfg_step (blocks.set cur_block { instr := new_instrs, edges := blk.edges })) 0 i := by
      rw [hstep_eq]
      intro i hi
      simp only [List.mem_append, List.mem_singleton] at hi
      rcases hi with (hi | rfl) | hi | hi
      · exact h3 i (List.mem_append.mpr (Or.inl hi))
      · exact h3 i (by simp)
      · exact h3 i (by simp [hi])
      · have hcur_rtg : Relation.ReflTransGen (cfg_step blocks) 0 cur_block :=
          h3 cur_block (by simp)
        exact hcur_rtg.tail ⟨blk, hb, (hext_mem i hi).1⟩
    have inv4 : ∀ i ∈ trace ++ [cur_block], ∀ b,
        (blocks.set cur_block { instr := new_instrs, edges := blk.edges })[i]? = some b →
        ∀ e ∈ b.edges, e ∈ visited ∪ extra.toFinset := by
      intro i hi b hib e he
      rcases List.mem_append.mp hi with hi | hi
      · have hne : i ≠ cur_block := fun hcon => hcur_notin_trace (hcon ▸ hi)
        rw [hset_ne i hne] at hib
        exact Finset.mem_union_left _ (h4 i hi b hib e he)
      · have : i = cur_block := List.mem_singleton.mp hi
        subst this
        rw [hset_self] at hib
        cases hib
        rcases hext_cov e he with hv | hv
        · exact Finset.mem_union_left _ hv
        · exact Finset.mem_union_right _ (List.mem_toFinset.mpr hv)
    have inv5 : ∀ i ∈ trace ++ [cur_block], i <
        (blocks.set cur_block { instr := new_instrs, edges := blk.edges }).length := by
      intro i hi
      rw [hset_len]
      rcases List.mem_append.mp hi with hi | hi
      · exact h5 i hi
      · rw [List.mem_singleton.mp hi]
        exact hcur_lt
    obtain ⟨c1, c2, c3, c4, c5, c6, c7, c9, c8⟩ :=
      ih bs tr h inv1 inv2 inv3 inv4 inv5
    have hcur_tr : cur_block ∈ tr := c5 cur_block (by simp)
    refine ⟨c1, ?_, ?_, ?_, ?_, ?_, ?_, ?_, ?_⟩
    · rw [hstep_eq] at c2
      exact c2
    · intro i hi
      have := c3 i hi
      rwa [hset_len] at this
    · intro i hi b hib e he
      by_cases hie : i = cur_block
      · subst hie
        have hbb : b = blk := by
          rw [hb] at hib
          cases hib
          rfl
        subst hbb
        exact c4 i hi _ hset_self e he
      · exact c4 i hi b (by rw [hset_ne i hie]; exact hib) e he
    · intro x hx
      apply c5
      simp only [List.mem_append, List.mem_singleton] at hx ⊢
      rcases hx with hx | hx
      · exact Or.inl (Or.inl hx)
      · rcases List.mem_cons.mp hx with rfl | hx
        · exact Or.inl (Or.inr rfl)
        · exact Or.inr (Or.inl hx)
    · intro i hi
      have hne : i ≠ cur_block := fun hcon => hi (hcon ▸ hcur_tr)
      rw [c6 i hi, hset_ne i hne]
    · intro i hi hni
      by_cases hie : i = cur_block
      · subst hie
        refine ⟨blk, new_instrs, hb, hpi, ?_⟩
        rw [c9 i (by simp), hset_self]
      · have hni2 : i ∉ trace ++ [cur_block] := by
          simp only [List.mem_append, List.mem_singleton]
          push_neg
          exact ⟨hni, hie⟩
        obtain ⟨b, l, hbl, hpl, hbs⟩ := c7 i hi hni2
        rw [hset_ne i hie] at hbl
        exact ⟨b, l, hbl, hpl, hbs⟩
    · intro i hi
      have hne : i ≠ cur_block := fun hcon => hcur_notin_trace (hcon ▸ hi)
      rw [c9 i (List.mem_append.mpr (Or.inl hi)), hset_ne i hne]
    · rw [c8, hset_len]

/-- Frame property of the work loop: a block that is already visited and not
pending in the queue is never touched. -/
lemma traverse_blocks_frame (functions : List Function) (ast_no : Nat) :
    ∀ (blocks : List BasicBlock) (queue : List Nat) (visited : Finset Nat)
      (trace : List Nat) (bs : List BasicBlock) (tr : List Nat),
      traverse_blocks functions ast_no blocks queue visited trace = some (bs, tr) →
      ∀ i, i ∈ visited → i ∉ queue → bs[i]? = blocks[i]? := by
  intro blocks queue visited trace
  induction blocks, queue, visited, trace using traverse_blocks.induct functions ast_no with
  | case1 blocks visited trace =>
    intro bs tr h i _ _
    rw [traverse_blocks_nil] at h
    simp only [Option.some.injEq, Prod.mk.injEq] at h
    rw [h.1]
  | case2 blocks visited trace cur_block rest hnone =>
    intro bs tr h
    simp [traverse_blocks_cons, hnone] at h
  | case3 blocks visited trace cur_block rest blk hb hpnone =>
    intro bs tr h
    simp [traverse_blocks_cons, hb, hpnone] at h
  | case4 blocks visited trace cur_block rest blk hb new_instrs hpi bset qv ih =>
    intro bs tr h i hvis hq
    simp only [traverse_blocks_cons, hb, hpi] at h
    unfold qv bset at ih
    obtain ⟨extra, hpe, hext_nd, hext_mem, hext_cov⟩ :=
      push_edges_spec blk.edges rest visited
    simp only [hpe] at h ih
    have hne : i ≠ cur_block := fun hcon => hq (hcon ▸ List.mem_cons_self _ _)
    have hq' : i ∉ rest ++ extra := by
      intro hcon
      rcases List.mem_append.mp hcon with hcon | hcon
      · exact hq (List.mem_cons_of_mem _ hcon)
      · exact (hext_mem i hcon).2 hvis
    have := ih bs tr h i (Finset.mem_union_left _ hvis) hq'
    rw [this, List.getElem?_set_ne (fun hcon => hne hcon.symm)]

/-- Running the work loop again over its own output (under any function table
and any current function) changes nothing: every processed block is a fixed
point of instruction processing, and the traversal repeats the same visits. -/
lemma traverse_blocks_stable (functions : List Function) (ast_no : Nat)
    (functions' : List Function) (ast_no' : Nat) :
    ∀ (blocks : List BasicBlock) (queue : List Nat) (visited : Finset Nat)
      (trace : List Nat) (bs : List BasicBlock) (tr : List Nat),
      traverse_blocks functions ast_no blocks queue visited trace = some (bs, tr) →
      queue.Nodup →
      (∀ x ∈ queue, x ∈ visited) →
      traverse_blocks functions' ast_no' bs queue visited trace = some (bs, tr) := by
  intro blocks queue visited trace
  induction blocks, queue, visited, trace using traverse_blocks.induct functions ast_no with
  | case1 blocks visited trace =>
    intro bs tr h _ _
    rw [traverse_blocks_nil] at h
    simp only [Option.some.injEq, Prod.mk.injEq] at h
    obtain ⟨rfl, rfl⟩ := h
    rw [traverse_blocks_nil]
  | case2 blocks visited trace cur_block rest hnone =>
    intro bs tr h
    simp [traverse_blocks_cons, hnone] at h
  | case3 blocks visited trace cur_block rest blk hb hpnone =>
    intro bs tr h
    simp [traverse_blocks_cons, hb, hpnone] at h
  | case4 blocks visited trace cur_block rest blk hb new_instrs hpi bset qv ih =>
    intro bs tr h hnd hqv
    simp only [traverse_blocks_cons, hb, hpi] at h
    unfold qv bset at ih
    obtain ⟨extra, hpe, hext_nd, hext_mem, hext_cov⟩ :=
      push_edges_spec blk.edges rest visited
    simp only [hpe] at h ih
    have hcur_vis : cur_block ∈ visited := hqv cur_block (List.mem_cons_self _ _)
    have hcur_lt : cur_block < blocks.length := getElem?_some_lt hb
    have hcur_notin_q' : cur_block ∉ rest ++ extra := by
      intro hcon
      rcases List.mem_append.mp hcon with hcon | hcon
      · exact (List.nodup_cons.mp hnd).1 hcon
      · exact (hext_mem cur_block hcon).2 hcur_vis
    have hframe := traverse_blocks_frame functions ast_no _ _ _ _ bs tr h cur_block
      (Finset.mem_union_left _ hcur_vis) hcur_notin_q'
    have hbs_cur : bs[cur_block]? = some { instr := new_instrs, edges := blk.edges } := by
      rw [hframe, List.getElem?_set_self hcur_lt]
    have hnd' : (rest ++ extra).Nodup := by
      rw [List.nodup_append]
      refine ⟨(List.nodup_cons.mp hnd).2, hext_nd, ?_⟩
      intro x hx hx2
      exact (hext_mem x hx2).2 (hqv x (List.mem_cons_of_mem _ hx))
    have hqv' : ∀ x ∈ rest ++ extra, x ∈ visited ∪ extra.toFinset := by
      intro x hx
      rcases List.mem_append.mp hx with hx | hx
      · exact Finset.mem_union_left _ (hqv x (List.mem_cons_of_mem _ hx))
      · exact Finset.mem_union_right _ (List.mem_toFinset.mpr hx)
    have hrec := ih bs tr h hnd' hqv'
    have hstable : process_instrs functions' ast_no' new_instrs = some new_instrs :=
      process_instrs_stable hpi functions' ast_no'
    have hset : bs.set cur_block { instr := new_instrs, edges := blk.edges } = bs :=
      list_set_self bs cur_block _ hbs_cur
    simp only [traverse_blocks_cons, hbs_cur, hstable, hpe, hset]
    exact hrec

/-- The initial invariants of the work loop hold for the seed state
(queue `[0]`, visited `{0}`, empty trace). -/
lemma traverse_blocks_start (functions : List Function) (ast_no : Nat)
    (blocks : List BasicBlock) (bs : List BasicBlock) (tr : List Nat)
    (h : traverse_blocks functions ast_no blocks [0] {0} [] = some (bs, tr)) :
    tr.Nodup ∧
    (∀ i ∈ tr, Relation.ReflTransGen (cfg_step blocks) 0 i) ∧
    (∀ i ∈ tr, i < blocks.length) ∧
    (∀ i ∈ tr, ∀ b, blocks[i]? = some b → ∀ e ∈ b.edges, e ∈ tr) ∧
    (0 ∈ tr) ∧
    (∀ i, i ∉ tr → bs[i]? = blocks[i]?) ∧
    (∀ i ∈ tr,
      ∃ b l, blocks[i]? = some b ∧ process_instrs functions ast_no b.instr = some l ∧
        bs[i]? = some { instr := l, edges := b.edges }) ∧
    bs.length = blocks.length := by
  obtain ⟨c1, c2, c3, c4, c5, c6, c7, _, c8⟩ :=
    traverse_blocks_master functions ast_no blocks [0] {0} [] bs tr h
      (by simp) (by simp) (by intro i hi; simp at hi; subst hi; exact .refl)
      (by intro i hi; simp at hi) (by intro i hi; simp at hi)
  refine ⟨c1, c2, c3, c4, c5 0 (by simp), c6, ?_, c8⟩
  intro i hi
  exact c7 i hi (by simp)

/-- Traversal correctness at the CFG level: a successful run visits exactly
the blocks reachable from block 0, each exactly once, and the number of visits
is at most the number of blocks. -/
lemma traverse_trace_spec (cfg : ControlFlowGraph) (functions : List Function)
    (ast_no : Nat) (trace : List Nat)
    (h : traverse_trace cfg functions ast_no = some trace) :
    trace.Nodup ∧
    (∀ i, i ∈ trace ↔ reachable cfg.blocks i) ∧
    trace.length ≤ cfg.blocks.length := by
  unfold traverse_trace at h
  by_cases hemp : cfg.blocks.isEmpty
  · rw [if_pos hemp] at h
    simp only [Option.some.injEq] at h
    subst h
    have hlen : cfg.blocks.length = 0 := by
      rwa [List.isEmpty_iff_length_eq_zero] at hemp
    refine ⟨List.nodup_nil, ?_, by simp⟩
    intro i
    simp only [List.not_mem_nil, false_iff]
    intro hcon
    exact Nat.not_lt_zero i (hlen ▸ hcon.2)
  · rw [if_neg hemp] at h
    cases htb : traverse_blocks functions ast_no cfg.blocks [0] {0} [] with
    | none => rw [htb] at h; simp at h
    | some p =>
      rw [htb] at h
      obtain ⟨bs, tr⟩ := p
      simp only [Option.some.injEq] at h
      subst h
      obtain ⟨c1, c2, c3, c4, c0, _, _, _⟩ :=
        traverse_blocks_start functions ast_no cfg.blocks bs tr htb
      refine ⟨c1, ?_, ?_⟩
      · intro i
        constructor
        · intro hi
          exact ⟨c2 i hi, c3 i hi⟩
        · rintro ⟨hrtg, hlt⟩
          clear hlt
          induction hrtg with
          | refl => exact c0
          | tail hab hbc ih =>
            obtain ⟨b, hkb, hj⟩ := hbc
            exact c4 _ ih b hkb _ hj
      · have hsub : tr.toFinset ⊆ Finset.range cfg.blocks.length := by
          intro x hx
          rw [List.mem_toFinset] at hx
          rw [Finset.mem_range]
          exact c3 x hx
        have := Finset.card_le_card hsub
        rwa [List.toFinset_card_of_nodup c1, Finset.card_range] at this

/-- What `traverse_cfg` does to the blocks of a CFG: the name is kept, the
block count is preserved, every visited (reachable) block has its instruction
list processed, and every other block is untouched. -/
lemma traverse_cfg_spec (cfg : ControlFlowGraph) (functions : List Function)
    (ast_no : Nat) (cfg' : ControlFlowGraph)
    (h : traverse_cfg cfg functions ast_no = some cfg') :
    cfg'.name = cfg.name ∧ cfg'.blocks.length = cfg.blocks.length ∧
    ∃ trace, traverse_trace cfg functions ast_no = some trace ∧
      (∀ i ∈ trace,
        ∃ b l, cfg.blocks[i]? = some b ∧ process_instrs functions ast_no b.instr = some l ∧
          cfg'.blocks[i]? = some { instr := l, edges := b.edges }) ∧
      (∀ i, i ∉ trace → cfg'.blocks[i]? = cfg.blocks[i]?) := by
  unfold traverse_cfg at h
  by_cases hemp : cfg.blocks.isEmpty
  · rw [if_pos hemp] at h
    simp only [Option.some.injEq] at h
    subst h
    refine ⟨rfl, rfl, [], ?_, ?_, ?_⟩
    · unfold traverse_trace
      rw [if_pos hemp]
    · intro i hi
      simp at hi
    · intro i _
      rfl
  · rw [if_neg hemp] at h
    cases htb : traverse_blocks functions ast_no cfg.blocks [0] {0} [] with
    | none => rw [htb] at h; simp at h
    | some p =>
      rw [htb] at h
      obtain ⟨bs, tr⟩ := p
      simp only [Option.some.injEq] at h
      subst h
      obtain ⟨_, _, _, _, _, c6, c7, c8⟩ :=
        traverse_blocks_start functions ast_no cfg.blocks bs tr htb
      refine ⟨rfl, c8, tr, ?_, c7, c6⟩
      unfold traverse_trace
      rw [if_neg hemp, htb]

/-- Idempotence at the CFG level: the output of `traverse_cfg` is a fixed
point of `traverse_cfg`, for any function table and any current function. -/
lemma traverse_cfg_stable (cfg : ControlFlowGraph) (functions : List Function)
    (ast_no : Nat) (cfg' : ControlFlowGraph)
    (h : traverse_cfg cfg functions ast_no = some cfg')
    (functions' : List Function) (ast_no' : Nat) :
    traverse_cfg cfg' functions' ast_no' = some cfg' := by
  unfold traverse_cfg at h ⊢
  by_cases hemp : cfg.blocks.isEmpty
  · rw [if_pos hemp] at h
    simp only [Option.some.injEq] at h
    subst h
    rw [if_pos hemp]
  · rw [if_neg hemp] at h
    cases htb : traverse_blocks functions ast_no cfg.blocks [0] {0} [] with
    | none => rw [htb] at h; simp at h
    | some p =>
      rw [htb] at h
      obtain ⟨bs, tr⟩ := p
      simp only [Option.some.injEq] at h
      subst h
      have hlen : bs.length = cfg.blocks.length :=
        (traverse_blocks_start functions ast_no cfg.blocks bs tr htb).2.2.2.2.2.2.2
      have hemp' : ¬(ControlFlowGraph.mk cfg.name bs).blocks.isEmpty := by
        simp only [List.isEmpty_iff_length_eq_zero] at hemp ⊢
        simpa [hlen] using hemp
      have hstable := traverse_blocks_stable functions ast_no functions' ast_no'
        cfg.blocks [0] {0} [] bs tr htb (by simp) (by simp)
      rw [if_neg hemp', hstable]

/-- A CFG that every further run of `traverse_cfg` maps to itself. -/
def traverse_fixed (c : ControlFlowGraph) : Prop :=
  ∀ (functions : List Function) (ast_no : Nat), traverse_cfg c functions ast_no = some c

/-- The output of `traverse_cfg` is always a fixed point. -/
lemma traverse_cfg_fixed {cfg : ControlFlowGraph} {functions : List Function}
    {ast_no : Nat} {cfg' : ControlFlowGraph}
    (h : traverse_cfg cfg functions ast_no = some cfg') : traverse_fixed cfg' := by
  intro functions' ast_no'
  exact traverse_cfg_stable cfg functions ast_no cfg' h functions' ast_no'

/-- The pure evolution of the last-constructor accumulator along the function
loop of `manage_contract_accounts`. -/
def constructor_fold (functions : List Function) :
    Option Nat → List Nat → Option (Option Nat)
  | cn, [] => some cn
  | cn, fno :: fnos =>
    match functions[fno]? with
    | none => none
    | some f => constructor_fold functions (if f.is_constructor then some fno else cn) fnos

/-- The first component of a successful function-loop fold is described by
`constructor_fold`. -/
lemma manage_fold_cn (functions : List Function) (af : List (Nat × Nat)) :
    ∀ (fnos : List Nat) (st st' : Option Nat × List ControlFlowGraph),
      List.foldlM (manage_step functions af) st fnos = some st' →
      constructor_fold functions st.1 fnos = some st'.1 := by
  intro fnos
  induction fnos with
  | nil =>
    intro st st' h
    simp only [List.foldlM_nil] at h
    cases h
    rfl
  | cons fno fnos ih =>
    intro st st' h
    rw [List.foldlM_cons] at h
    cases hstep : manage_step functions af st fno with
    | none => rw [hstep] at h; simp at h
    | some st1 =>
      rw [hstep] at h
      simp only [Option.bind_eq_bind, Option.some_bind] at h
      unfold manage_step at hstep
      cases hf : functions[fno]? with
      | none => rw [hf] at hstep; simp at hstep
      | some f =>
        rw [hf] at hstep
        simp only [Option.bind_eq_bind, Option.some_bind] at hstep
        have hcn1 : st1.1 = if f.is_constructor then some fno else st.1 := by
          cases hl : lookup_all_functions af fno with
          | none => rw [hl] at hstep; simp at hstep
          | some cfg_no =>
            rw [hl] at hstep
            simp only [Option.some_bind] at hstep
            cases hcfg : st.2[cfg_no]? with
            | none => rw [hcfg] at hstep; simp at hstep
            | some cfg =>
              rw [hcfg] at hstep
              simp only [Option.some_bind] at hstep
              cases htc : traverse_cfg cfg functions fno with
              | none => rw [htc] at hstep; simp at hstep
              | some cfg2 =>
                rw [htc] at hstep
                simp only [Option.some_bind, Option.some.injEq] at hstep
                rw [← hstep]
        have hrec := ih st1 st' h
        rw [hcn1] at hrec
        simp only [constructor_fold, hf]
        exact hrec

/-- Splitting a successful `manage_step` into its pieces. -/
lemma manage_step_some {functions : List Function} {af : List (Nat × Nat)}
    {st st1 : Option Nat × List ControlFlowGraph} {fno : Nat}
    (h : manage_step functions af st fno = some st1) :
    ∃ f cfg_no cfg cfg2,
      functions[fno]? = some f ∧
      lookup_all_functions af fno = some cfg_no ∧
      st.2[cfg_no]? = some cfg ∧
      traverse_cfg cfg functions fno = some cfg2 ∧
      st1 = (if f.is_constructor then some fno else st.1, st.2.set cfg_no cfg2) := by
  unfold manage_step at h
  cases hf : functions[fno]? with
  | none => rw [hf] at h; simp at h
  | some f =>
    rw [hf] at h
    simp only [Option.bind_eq_bind, Option.some_bind] at h
    cases hl : lookup_all_functions af fno with
    | none => rw [hl] at h; simp at h
    | some cfg_no =>
      rw [hl] at h
      simp only [Option.some_bind] at h
      cases hcfg : st.2[cfg_no]? with
      | none => rw [hcfg] at h; simp at h
      | some cfg =>
        rw [hcfg] at h
        simp only [Option.some_bind] at h
        cases htc : traverse_cfg cfg functions fno with
        | none => rw [htc] at h; simp at h
        | some cfg2 =>
          rw [htc] at h
          simp only [Option.some_bind, Option.some.injEq] at h
          exact ⟨f, cfg_no, cfg, cfg2, by simp [hf], by simp [hl], by simp [hcfg], by simp [htc], h.symm⟩

/-- Post-state of the function loop: lengths are preserved, every processed
function exists and has a CFG slot, that slot finally holds a traverse fixed
point, and every slot is either untouched or a traverse fixed point. -/
lemma manage_fold_spec (functions : List Function) (af : List (Nat × Nat)) :
    ∀ (fnos : List Nat) (st st' : Option Nat × List ControlFlowGraph),
      List.foldlM (manage_step functions af) st fnos = some st' →
      st'.2.length = st.2.length ∧
      (∀ fno ∈ fnos, ∃ f, functions[fno]? = some f) ∧
      (∀ fno ∈ fnos, ∃ cfg_no, lookup_all_functions af fno = some cfg_no ∧
        ∃ c, st'.2[cfg_no]? = some c ∧ traverse_fixed c) ∧
      (∀ (j : Nat), st'.2[j]? = st.2[j]? ∨ ∃ c, st'.2[j]? = some c ∧ traverse_fixed c) := by
  intro fnos
  induction fnos with
  | nil =>
    intro st st' h
    simp only [List.foldlM_nil] at h
    cases h
    refine ⟨rfl, ?_, ?_, ?_⟩
    · intro fno hf; simp at hf
    · intro fno hf; simp at hf
    · intro j; exact Or.inl rfl
  | cons fno fnos ih =>
    intro st st' h
    rw [List.foldlM_cons] at h
    cases hstep : manage_step functions af st fno with
    | none => rw [hstep] at h; simp at h
    | some st1 =>
      rw [hstep] at h
      simp only [Option.bind_eq_bind, Option.some_bind] at h
      obtain ⟨f, cfg_no, cfg, cfg2, hf, hl, hcfg, htc, hst1⟩ := manage_step_some hstep
      obtain ⟨ihlen, ihfun, ihslot, ihframe⟩ := ih st1 st' h
      have hst12 : st1.2 = st.2.set cfg_no cfg2 := by rw [hst1]
      have hfix2 : traverse_fixed cfg2 := traverse_cfg_fixed htc
      have hcfg_lt : cfg_no < st.2.length := getElem?_some_lt hcfg
      refine ⟨?_, ?_, ?_, ?_⟩
      · rw [ihlen, hst12, List.length_set]
      · intro x hx
        rcases List.mem_cons.mp hx with rfl | hx
        · exact ⟨f, hf⟩
        · exact ihfun x hx
      · intro x hx
        rcases List.mem_cons.mp hx with rfl | hx
        · refine ⟨cfg_no, hl, ?_⟩
          rcases ihframe cfg_no with hj | hj
          · rw [hst12, List.getElem?_set_self hcfg_lt] at hj
            exact ⟨cfg2, hj, hfix2⟩
          · exact hj
        · exact ihslot x hx
      · intro j
        rcases ihframe j with hj | hj
        · by_cases hje : j = cfg_no
          · subst hje
            rw [hst12, List.getElem?_set_self hcfg_lt] at hj
            exact Or.inr ⟨cfg2, hj, hfix2⟩
          · rw [hst12, List.getElem?_set_ne (fun hcon => hje hcon.symm)] at hj
            exact Or.inl hj
        · exact Or.inr hj

/-- A fold over function numbers whose CFG slots all hold traverse fixed
points leaves the CFG list unchanged and computes only the constructor
accumulator. -/
lemma manage_fold_stable (functions : List Function) (af : List (Nat × Nat)) :
    ∀ (fnos : List Nat) (L : List ControlFlowGraph) (cn : Option Nat),
      (∀ fno ∈ fnos, ∃ f, functions[fno]? = some f) →
      (∀ fno ∈ fnos, ∃ cfg_no, lookup_all_functions af fno = some cfg_no ∧
        ∃ c, L[cfg_no]? = some c ∧ traverse_fixed c) →
      ∃ cn', List.foldlM (manage_step functions af) (cn, L) fnos = some (cn', L) ∧
        constructor_fold functions cn fnos = some cn' := by
  intro fnos
  induction fnos with
  | nil =>
    intro L cn _ _
    exact ⟨cn, by simp, rfl⟩
  | cons fno fnos ih =>
    intro L cn hfun hslot
    obtain ⟨f, hf⟩ := hfun fno (List.mem_cons_self _ _)
    obtain ⟨cfg_no, hl, c, hc, hfix⟩ := hslot fno (List.mem_cons_self _ _)
    have hstep : manage_step functions af (cn, L) fno
        = some (if f.is_constructor then some fno else cn, L) := by
      unfold manage_step
      rw [hf]
      simp only [Option.bind_eq_bind, Option.some_bind]
      rw [hl]
      simp only [Option.some_bind]
      rw [hc]
      simp only [Option.some_bind]
      rw [hfix functions fno]
      simp only [Option.some_bind, Option.some.injEq]
      rw [list_set_self L cfg_no c hc]
    obtain ⟨cn', hrec, hcf⟩ := ih L (if f.is_constructor then some fno else cn)
      (fun x hx => hfun x (List.mem_cons_of_mem _ hx))
      (fun x hx => hslot x (List.mem_cons_of_mem _ hx))
    refine ⟨cn', ?_, ?_⟩
    · rw [List.foldlM_cons, hstep]
      simp only [Option.bind_eq_bind, Option.some_bind]
      exact hrec
    · unfold constructor_fold
      rw [hf]
      exact hcf

/-- Replacing a list entry by one with the same predicate value does not change
`findIdx?`. -/
lemma findIdx?_set_congr {α : Type} (p : α → Bool) :
    ∀ (l : List α) (n : Nat) (a a' : α) (i : Nat),
      l[n]? = some a → p a' = p a →
      (l.set n a').findIdx? p i = l.findIdx? p i := by
  intro l
  induction l with
  | nil =>
    intro n a a' i h _
    simp at h
  | cons x xs ih =>
    intro n a a' i h hp
    cases n with
    | zero =>
      simp only [List.getElem?_cons_zero, Option.some.injEq] at h
      show (a' :: xs).findIdx? p i = (x :: xs).findIdx? p i
      rw [List.findIdx?_cons, List.findIdx?_cons, hp, h]
    | succ m =>
      simp only [List.getElem?_cons_succ] at h
      show (x :: xs.set m a').findIdx? p i = (x :: xs).findIdx? p i
      rw [List.findIdx?_cons, List.findIdx?_cons, ih m a a' (i + 1) h hp]

/-- Decomposition of a successful run of `manage_contract_accounts` into the
contract lookup, the function loop, and the optional dispatch traversal. -/
lemma manage_some {contract_no : Nat} {ns ns' : Namespace}
    (h : manage_contract_accounts contract_no ns = some ns') :
    ∃ contract st,
      ns.contracts[contract_no]? = some contract ∧
      List.foldlM (manage_step ns.functions contract.all_functions)
        (none, contract.cfg) contract.functions = some st ∧
      ((st.1 = none ∧
        ns' = { ns with
          contracts := ns.contracts.set contract_no { contract with cfg := st.2 } }) ∨
       (∃ ctor didx dispatch dispatch2,
          st.1 = some ctor ∧
          st.2.findIdx? (fun cfg => cfg.name = SOLANA_DISPATCH_CFG_NAME) = some didx ∧
          st.2[didx]? = some dispatch ∧
          traverse_cfg dispatch ns.functions ctor = some dispatch2 ∧
          ns' = { ns with
            contracts := ns.contracts.set contract_no
              { contract with cfg := st.2.set didx dispatch2 } })) := by
  unfold manage_contract_accounts at h
  cases hc : ns.contracts[contract_no]? with
  | none => rw [hc] at h; simp at h
  | some contract =>
    rw [hc] at h
    simp only [Option.bind_eq_bind, Option.some_bind] at h
    cases hfold : List.foldlM (manage_step ns.functions contract.all_functions)
        (none, contract.cfg) contract.functions with
    | none => rw [hfold] at h; simp at h
    | some st =>
      rw [hfold] at h
      simp only [Option.some_bind] at h
      refine ⟨contract, st, rfl, hfold, ?_⟩
      cases hst1 : st.1 with
      | none =>
        rw [hst1] at h
        simp only [Option.some.injEq] at h
        exact Or.inl ⟨rfl, h.symm⟩
      | some ctor =>
        rw [hst1] at h
        simp only [Option.bind_eq_bind] at h
        cases hdi : st.2.findIdx? (fun cfg => cfg.name = SOLANA_DISPATCH_CFG_NAME) with
        | none => rw [hdi] at h; simp at h
        | some didx =>
          rw [hdi] at h
          simp only [Option.some_bind] at h
          cases hd : st.2[didx]? with
          | none => rw [hd] at h; simp at h
          | some dispatch =>
            rw [hd] at h
            simp only [Option.some_bind] at h
            cases htd : traverse_cfg dispatch ns.functions ctor with
            | none => rw [htd] at h; simp at h
            | some dispatch2 =>
              rw [htd] at h
              simp only [Option.some_bind, Option.some.injEq] at h
              exact Or.inr ⟨ctor, didx, dispatch, dispatch2, rfl, rfl, hd, htd, h.symm⟩

/-- Idempotence of the whole pass on a contract: running
`manage_contract_accounts` on its own output changes nothing. -/
lemma manage_idem {contract_no : Nat} {ns ns' : Namespace}
    (h : manage_contract_accounts contract_no ns = some ns') :
    manage_contract_accounts contract_no ns' = some ns' := by
  obtain ⟨contract, st, hc, hfold, hbr⟩ := manage_some h
  have hclt : contract_no < ns.contracts.length := getElem?_some_lt hc
  obtain ⟨hlen, hfun, hslot, _⟩ :=
    manage_fold_spec ns.functions contract.all_functions contract.functions
      (none, contract.cfg) st hfold
  have hcn := manage_fold_cn ns.functions contract.all_functions contract.functions
    (none, contract.cfg) st hfold
  rcases hbr with ⟨hst1, rfl⟩ | ⟨ctor, didx, dispatch, dispatch2, hst1, hdi, hd, htd, rfl⟩
  · -- no constructor: the final CFG list is the fold result itself
    have hc2 : (ns.contracts.set contract_no { contract with cfg := st.2 })[contract_no]?
        = some { contract with cfg := st.2 } := List.getElem?_set_self hclt
    obtain ⟨cn', hfold2, hcf2⟩ := manage_fold_stable ns.functions contract.all_functions
      contract.functions st.2 none hfun hslot
    have hcn' : cn' = st.1 := by
      rw [hcn] at hcf2
      exact (Option.some.injEq _ _).mp hcf2.symm
    unfold manage_contract_accounts
    rw [hc2]
    simp only [Option.bind_eq_bind, Option.some_bind]
    rw [hfold2, hcn', hst1]
    simp only [Option.some_bind, Option.some.injEq]
    rw [List.set_set]
  · -- constructor present: the final CFG list additionally has the dispatch
    -- CFG replaced by its (stable) traversal
    have hdlt : didx < st.2.length := getElem?_some_lt hd
    have hfixd : traverse_fixed dispatch2 := traverse_cfg_fixed htd
    have hname : dispatch2.name = dispatch.name :=
      (traverse_cfg_spec dispatch ns.functions ctor dispatch2 htd).1
    have hc2 : (ns.contracts.set contract_no
        { contract with cfg := st.2.set didx dispatch2 })[contract_no]?
        = some { contract with cfg := st.2.set didx dispatch2 } :=
      List.getElem?_set_self hclt
    have hslot2 : ∀ fno ∈ contract.functions,
        ∃ cfg_no, lookup_all_functions contract.all_functions fno = some cfg_no ∧
          ∃ c, (st.2.set didx dispatch2)[cfg_no]? = some c ∧ traverse_fixed c := by
      intro fno hfn
      obtain ⟨cfg_no, hl, c, hcc, hfix⟩ := hslot fno hfn
      by_cases hje : cfg_no = didx
      · subst hje
        refine ⟨cfg_no, hl, dispatch2, ?_, hfixd⟩
        exact List.getElem?_set_self hdlt
      · refine ⟨cfg_no, hl, c, ?_, hfix⟩
        rw [List.getElem?_set_ne (fun hcon => hje hcon.symm)]
        exact hcc
    obtain ⟨cn', hfold2, hcf2⟩ := manage_fold_stable ns.functions contract.all_functions
      contract.functions (st.2.set didx dispatch2) none hfun hslot2
    have hcn' : cn' = st.1 := by
      rw [hcn] at hcf2
      exact (Option.some.injEq _ _).mp hcf2.symm
    have hdi2 : (st.2.set didx dispatch2).findIdx?
        (fun cfg => cfg.name = SOLANA_DISPATCH_CFG_NAME) = some didx := by
      rw [findIdx?_set_congr _ st.2 didx dispatch dispatch2 0 hd (by simp [hname])]
      exact hdi
    have hd2 : (st.2.set didx dispatch2)[didx]? = some dispatch2 :=
      List.getElem?_set_self hdlt
    unfold manage_contract_accounts
    rw [hc2]
    simp only [Option.bind_eq_bind, Option.some_bind]
    rw [hfold2, hcn', hst1]
    simp only [Option.bind_eq_bind, Option.some_bind]
    rw [hdi2]
    simp only [Option.some_bind]
    rw [hd2]
    simp only [Option.some_bind]
    rw [hfixd ns.functions ctor]
    simp only [Option.some_bind, Option.some.injEq]
    rw [list_set_self _ didx dispatch2 hd2, List.set_set]

/-- The function loop never touches a CFG slot that no processed function maps
to. -/
lemma manage_fold_frame (functions : List Function) (af : List (Nat × Nat)) :
    ∀ (fnos : List Nat) (st st' : Option Nat × List ControlFlowGraph) (j : Nat),
      List.foldlM (manage_step functions af) st fnos = some st' →
      (∀ fno ∈ fnos, lookup_all_functions af fno ≠ some j) →
      st'.2[j]? = st.2[j]? := by
  intro fnos
  induction fnos with
  | nil =>
    intro st st' j h _
    simp only [List.foldlM_nil] at h
    cases h
    rfl
  | cons fno fnos ih =>
    intro st st' j h hno
    rw [List.foldlM_cons] at h
    cases hstep : manage_step functions af st fno with
    | none => rw [hstep] at h; simp at h
    | some st1 =>
      rw [hstep] at h
      simp only [Option.bind_eq_bind, Option.some_bind] at h
      obtain ⟨f, cfg_no, cfg, cfg2, hf, hl, hcfg, htc, hst1⟩ := manage_step_some hstep
      have hne : cfg_no ≠ j := by
        intro hcon
        exact hno fno (List.mem_cons_self _ _) (hcon ▸ hl)
      have := ih st1 st' j h (fun x hx => hno x (List.mem_cons_of_mem _ hx))
      rw [this, hst1]
      exact List.getElem?_set_ne hne

/-- The function loop preserves every slot's CFG name. -/
lemma manage_fold_names (functions : List Function) (af : List (Nat × Nat)) :
    ∀ (fnos : List Nat) (st st' : Option Nat × List ControlFlowGraph) (j : Nat)
      (c' : ControlFlowGraph),
      List.foldlM (manage_step functions af) st fnos = some st' →
      st'.2[j]? = some c' →
      ∃ c, st.2[j]? = some c ∧ c'.name = c.name := by
  intro fnos
  induction fnos with
  | nil =>
    intro st st' j c' h hj
    simp only [List.foldlM_nil] at h
    cases h
    exact ⟨c', hj, rfl⟩
  | cons fno fnos ih =>
    intro st st' j c' h hj
    rw [List.foldlM_cons] at h
    cases hstep : manage_step functions af st fno with
    | none => rw [hstep] at h; simp at h
    | some st1 =>
      rw [hstep] at h
      simp only [Option.bind_eq_bind, Option.some_bind] at h
      obtain ⟨f, cfg_no, cfg, cfg2, hf, hl, hcfg, htc, hst1⟩ := manage_step_some hstep
      obtain ⟨c1, hc1, hname1⟩ := ih st1 st' j c' h hj
      by_cases hje : j = cfg_no
      · subst hje
        rw [hst1] at hc1
        simp only at hc1
        rw [List.getElem?_set_self (getElem?_some_lt hcfg)] at hc1
        cases hc1
        refine ⟨cfg, hcfg, ?_⟩
        rw [hname1]
        exact (traverse_cfg_spec cfg functions fno _ htc).1
      · rw [hst1] at hc1
        simp only at hc1
        rw [List.getElem?_set_ne (fun hcon => hje hcon.symm)] at hc1
        exact ⟨c1, hc1, hname1⟩

/-- If a function of the loop is the only one mapping to its CFG slot, that
slot finally holds exactly the traversal of its original CFG. -/
lemma manage_fold_at (functions : List Function) (af : List (Nat × Nat)) :
    ∀ (fnos : List Nat) (st st' : Option Nat × List ControlFlowGraph)
      (fno cfg_no : Nat),
      List.foldlM (manage_step functions af) st fnos = some st' →
      lookup_all_functions af fno = some cfg_no →
      fno ∈ fnos →
      (∀ fno2 ∈ fnos, fno2 ≠ fno → lookup_all_functions af fno2 ≠ some cfg_no) →
      ∃ c0 c1, st.2[cfg_no]? = some c0 ∧ traverse_cfg c0 functions fno = some c1 ∧
        st'.2[cfg_no]? = some c1 := by
  intro fnos
  induction fnos with
  | nil =>
    intro st st' fno cfg_no _ _ hmem _
    simp at hmem
  | cons f fs ih =>
    intro st st' fno cfg_no h hl hmem huniq
    rw [List.foldlM_cons] at h
    cases hstep : manage_step functions af st f with
    | none => rw [hstep] at h; simp at h
    | some st1 =>
      rw [hstep] at h
      simp only [Option.bind_eq_bind, Option.some_bind] at h
      obtain ⟨ff, cfg_no_f, cfg_f, cfg2_f, hff, hlf, hcfgf, htcf, hst1⟩ :=
        manage_step_some hstep
      by_cases hffno : f = fno
      · subst hffno
        have hcfge : cfg_no_f = cfg_no := by
          rw [hlf] at hl
          exact (Option.some.injEq _ _).mp hl
        subst hcfge
        have hst1_at : st1.2[cfg_no_f]? = some cfg2_f := by
          rw [hst1]
          simp only
          exact List.getElem?_set_self (getElem?_some_lt hcfgf)
        by_cases hmem2 : f ∈ fs
        · obtain ⟨c0', c1', hc0', htc', hst'⟩ := ih st1 st' f cfg_no_f h hlf hmem2
            (fun x hx hne => huniq x (List.mem_cons_of_mem _ hx) hne)
          rw [hst1_at] at hc0'
          cases hc0'
          have hfix : traverse_cfg cfg2_f functions f = some cfg2_f :=
            traverse_cfg_fixed htcf functions f
          rw [hfix] at htc'
          cases htc'
          exact ⟨cfg_f, cfg2_f, hcfgf, htcf, hst'⟩
        · have hframe := manage_fold_frame functions af fs st1 st' cfg_no_f h ?hno
          · rw [hframe, hst1_at]
            exact ⟨cfg_f, cfg2_f, hcfgf, htcf, rfl⟩
          case hno =>
            intro x hx hcon
            by_cases hxf : x = f
            · exact hmem2 (hxf ▸ hx)
            · exact huniq x (List.mem_cons_of_mem _ hx) hxf hcon
      · have hne : cfg_no_f ≠ cfg_no := by
          intro hcon
          exact huniq f (List.mem_cons_self _ _) hffno (hcon ▸ hlf)
        have hst1_at : st1.2[cfg_no]? = st.2[cfg_no]? := by
          rw [hst1]
          simp only
          exact List.getElem?_set_ne hne
        have hmem2 : fno ∈ fs := by
          rcases List.mem_cons.mp hmem with rfl | hx
          · exact absurd rfl hffno
          · exact hx
        obtain ⟨c0, c1, hc0, htc, hst'⟩ := ih st1 st' fno cfg_no h hl hmem2
          (fun x hx hne2 => huniq x (List.mem_cons_of_mem _ hx) hne2)
        rw [hst1_at] at hc0
        exact ⟨c0, c1, hc0, htc, hst'⟩

/-- The entry a successful `findIdx?` points at satisfies the predicate. -/
lemma findIdx?_found {α : Type} (p : α → Bool) :
    ∀ (l : List α) (i j : Nat), l.findIdx? p i = some j →
      ∃ k a, j = i + k ∧ l[k]? = some a ∧ p a = true := by
  intro l
  induction l with
  | nil =>
    intro i j h
    simp at h
  | cons x xs ih =>
    intro i j h
    rw [List.findIdx?_cons] at h
    by_cases hx : p x
    · rw [if_pos hx] at h
      simp only [Option.some.injEq] at h
      exact ⟨0, x, by omega, by simp, hx⟩
    · rw [if_neg hx] at h
      obtain ⟨k, a, hj, hk, hp⟩ := ih (i + 1) j h
      exact ⟨k + 1, a, by omega, by simpa using hk, hp⟩

/-- `findIdx?` only depends on the predicate values along the list. -/
lemma findIdx?_congr_pointwise {α : Type} (p : α → Bool) :
    ∀ (l1 l2 : List α), l1.length = l2.length →
      (∀ (j : Nat), (l1[j]?).map p = (l2[j]?).map p) →
      ∀ i, l1.findIdx? p i = l2.findIdx? p i := by
  intro l1
  induction l1 with
  | nil =>
    intro l2 hlen _ i
    cases l2 with
    | nil => rfl
    | cons y ys => simp at hlen
  | cons x xs ih =>
    intro l2 hlen hp i
    cases l2 with
    | nil => simp at hlen
    | cons y ys =>
      have hp0 := hp 0
      simp only [List.getElem?_cons_zero, Option.map_some', Option.some.injEq] at hp0
      rw [List.findIdx?_cons, List.findIdx?_cons, hp0]
      by_cases hy : p y
      · rw [if_pos hy, if_pos hy]
      · rw [if_neg hy, if_neg hy]
        refine ih ys (by simpa using hlen) ?_ (i + 1)
        intro j
        have := hp (j + 1)
        simpa using this

/-- A name is found by `get_index_of` exactly when it appears in the spec. -/
lemma get_index_of_isSome (spec : AccountSpec) (name : String) :
    (get_index_of spec name).isSome ↔ ∃ q ∈ spec, q.1 = name := by
  unfold get_index_of
  rw [List.findIdx?_isSome, List.any_eq_true]
  constructor
  · rintro ⟨q, hq, hp⟩
    exact ⟨q, hq, by simpa using hp⟩
  · rintro ⟨q, hq, hp⟩
    exact ⟨q, hq, by simpa using hp⟩

/-- When a meta can be synthesized for one callee spec entry. -/
lemma synthesize_meta_isSome {functions : List Function} {ast_no : Nat}
    {caller : Function} (hcaller : functions[ast_no]? = some caller)
    (address : Option Expression) (e : String × SolanaAccount) :
    (synthesize_meta functions ast_no address e).isSome ↔
      (e.1 = dataAccountName → address.isSome) ∧
      (e.1 ≠ dataAccountName → e.1 ≠ systemAccountName →
        (get_index_of caller.solana_accounts e.1).isSome) := by
  unfold synthesize_meta
  by_cases hd : e.1 = dataAccountName
  · rw [if_pos hd]
    cases address with
    | none =>
      simp only [Option.isSome_none, Bool.false_eq_true, false_iff]
      intro hcon
      have := hcon.1 hd
      simp at this
    | some a =>
      simp only [Option.isSome_some, true_iff]
      exact ⟨fun _ => trivial, fun hd2 _ => absurd hd hd2⟩
  · rw [if_neg hd]
    by_cases hs : e.1 = systemAccountName
    · rw [if_pos hs]
      simp only [Option.isSome_some, true_iff]
      exact ⟨fun hcon => absurd hcon hd, fun _ hs2 => absurd hs hs2⟩
    · rw [if_neg hs]
      rw [hcaller]
      cases hg : get_index_of caller.solana_accounts e.1 with
      | none =>
        simp only [hg, Option.isSome_none, Bool.false_eq_true, false_iff]
        intro hcon
        exact hcon.2 hd hs
      | some idx =>
        simp only [hg, Option.isSome_some, true_iff]
        exact ⟨fun hcon => absurd hcon hd, fun _ _ => trivial⟩

/-- Every synthesized meta expression is an `account_meta_literal`. -/
lemma synthesize_meta_shape {functions : List Function} {ast_no : Nat}
    {address : Option Expression} {e : String × SolanaAccount} {m : Expression}
    (h : synthesize_meta functions ast_no address e = some m) :
    ∃ a s w, m = account_meta_literal a s w := by
  unfold synthesize_meta at h
  by_cases hd : e.1 = dataAccountName
  · rw [if_pos hd] at h
    cases address with
    | none => simp at h
    | some a =>
      simp only [Option.some.injEq] at h
      exact ⟨_, _, _, h.symm⟩
  · rw [if_neg hd] at h
    by_cases hs : e.1 = systemAccountName
    · rw [if_pos hs] at h
      simp only [Option.some.injEq] at h
      exact ⟨_, _, _, h.symm⟩
    · rw [if_neg hs] at h
      cases hf : functions[ast_no]? with
      | none => simp [hf] at h
      | some caller =>
        cases hg : get_index_of caller.solana_accounts e.1 with
        | none => simp [hf, hg] at h
        | some idx =>
          simp only [hf, hg, Option.some.injEq] at h
          exact ⟨_, _, _, h.symm⟩

/-- The storage-capability methods of the `TargetRuntime` trait, in the order
they appear in the Stylus implementation (`src/emit/stylus/target.rs`). -/
inductive StorageOp where
  | get_storage_int : StorageOp
  | storage_load : StorageOp
  | storage_store : StorageOp
  | storage_delete : StorageOp
  | set_storage_string : StorageOp
  | get_storage_string : StorageOp
  | set_storage_extfunc : StorageOp
  | get_storage_extfunc : StorageOp
  | get_storage_bytes_subscript : StorageOp
  | set_storage_bytes_subscript : StorageOp
  | storage_subscript : StorageOp
  | storage_push : StorageOp
  | storage_pop : StorageOp
  | storage_array_length : StorageOp
deriving DecidableEq, Repr

/-- Whether each storage method of the Stylus `TargetRuntime` implementation
emits code (`true`) or aborts compilation with an `unimplemented!` condition
(`false`).  Transcribed method by method from the bodies of
`impl TargetRuntime for StylusTarget`: `storage_load` emits a call to the
`storage_load_bytes32` host intrinsic and `storage_store` emits
`storage_cache_bytes32` followed by `storage_flush_cache`; every other body is
`unimplemented!()`. -/
def stylus_storage_implemented : StorageOp → Bool
  | StorageOp.get_storage_int => false
  | StorageOp.storage_load => true
  | StorageOp.storage_store => true
  | StorageOp.storage_delete => false
  | StorageOp.set_storage_string => false
  | StorageOp.get_storage_string => false
  | StorageOp.set_storage_extfunc => false
  | StorageOp.get_storage_extfunc => false
  | StorageOp.get_storage_bytes_subscript => false
  | StorageOp.set_storage_bytes_subscript => false
  | StorageOp.storage_subscript => false
  | StorageOp.storage_push => false
  | StorageOp.storage_pop => false
  | StorageOp.storage_array_length => false

/-- `codegen::cfg::HashTy` (defined outside the analysed sources); the
variants a target `hash` implementation can receive. -/
inductive HashTy where
  | Keccak256 : HashTy
  | Ripemd160 : HashTy
  | Sha256 : HashTy
  | Blake2_128 : HashTy
  | Blake2_256 : HashTy
deriving DecidableEq, Repr

/-- The guard of `StylusTarget::hash`: any algorithm other than keccak256
aborts with an `unimplemented!` condition before any code is emitted. -/
def stylus_hash_emits (hash : HashTy) : Bool :=
  if hash ≠ HashTy.Keccak256 then false else true

/-- Decomposition of a successful Constructor rewrite. -/
lemma process_constructor_some {functions : List Function} {ast_no cno : Nat}
    {address : Option Expression} {rest : Nat} {i' : Instr} {callee : Function}
    (hcallee : functions[cno]? = some callee)
    (h : process_instruction (Instr.Constructor none address (some cno) rest)
      functions ast_no = some i') :
    ∃ metas, collect_metas functions ast_no address callee.solana_accounts = some metas ∧
      i' = Instr.Constructor (some (metas_vector metas)) none (some cno) rest := by
  unfold process_instruction at h
  simp only [hcallee] at h
  cases hcm : collect_metas functions ast_no address callee.solana_accounts with
  | none => simp [hcm] at h
  | some metas =>
    simp only [hcm, Option.some.injEq] at h
    exact ⟨metas, rfl, h.symm⟩

/-- C1: when the pass rewrites a Constructor instruction (accounts unresolved,
callee constructor known), the synthesized AccountMeta array has exactly one
element per entry of the callee constructor's account spec, positionally in
the callee's insertion order; each non-sentinel entry's address expression
reads the caller's account list at the index of that name in the caller's own
spec, while the signer/writer flags come from the callee's spec entry. -/
theorem constructor_accounts_callee_order
    (functions : List Function) (ast_no cno : Nat) (callee caller : Function)
    (address : Option Expression) (rest : Nat) (i' : Instr)
    (hcallee : functions[cno]? = some callee)
    (hcaller : functions[ast_no]? = some caller)
    (h : process_instruction (Instr.Constructor none address (some cno) rest)
      functions ast_no = some i') :
    ∃ metas, i' = Instr.Constructor (some (metas_vector metas)) none (some cno) rest ∧
      metas.length = callee.solana_accounts.length ∧
      ∀ (k : Nat) (name : String) (acct : SolanaAccount),
        callee.solana_accounts[k]? = some (name, acct) →
        name ≠ dataAccountName → name ≠ systemAccountName →
        ∃ idx, get_index_of caller.solana_accounts name = some idx ∧
          metas[k]? = some (account_meta_literal (accounts_vector_key_at_index idx)
            acct.is_signer acct.is_writer) := by
  obtain ⟨metas, hcm, rfl⟩ := process_constructor_some hcallee h
  obtain ⟨hlen, hget⟩ := collect_metas_spec hcm
  refine ⟨metas, rfl, hlen, ?_⟩
  intro k name acct hk hnd hns
  obtain ⟨m, hm, hmk⟩ := hget k (name, acct) hk
  unfold synthesize_meta at hm
  rw [if_neg hnd, if_neg hns, hcaller] at hm
  cases hg : get_index_of caller.solana_accounts name with
  | none => simp [hg] at hm
  | some idx =>
    simp only [hg, Option.some.injEq] at hm
    refine ⟨idx, rfl, ?_⟩
    rw [hmk, ← hm]

/-- C2: in every synthesized AccountMeta array, a `SystemAccount` entry lowers
to a reference to the zero address constant with both flags false regardless of
the recorded flags, a `DataAccount` entry lowers to a reference to the
Constructor's supplied target address, and after the rewrite the raw address
operand is `None` while the account list is `Some` of the synthesized array. -/
theorem constructor_sentinel_lowering
    (functions : List Function) (ast_no cno : Nat) (callee : Function)
    (address : Option Expression) (rest : Nat) (i' : Instr)
    (hcallee : functions[cno]? = some callee)
    (h : process_instruction (Instr.Constructor none address (some cno) rest)
      functions ast_no = some i') :
    ∃ metas, i' = Instr.Constructor (some (metas_vector metas)) none (some cno) rest ∧
      (∀ (k : Nat) (acct : SolanaAccount),
        callee.solana_accounts[k]? = some (systemAccountName, acct) →
        metas[k]? = some (account_meta_literal
          (Expression.GetRef Loc.Codegen (Ty.Ref (Ty.Address false))
            (Expression.NumberLiteral Loc.Codegen (Ty.Address false) 0)) false false)) ∧
      (∀ (k : Nat) (acct : SolanaAccount),
        callee.solana_accounts[k]? = some (dataAccountName, acct) →
        ∃ a, address = some a ∧
          metas[k]? = some (account_meta_literal
            (Expression.GetRef Loc.Codegen (Ty.Ref (Ty.Address false)) a)
            acct.is_signer acct.is_writer)) := by
  obtain ⟨metas, hcm, rfl⟩ := process_constructor_some hcallee h
  obtain ⟨hlen, hget⟩ := collect_metas_spec hcm
  refine ⟨metas, rfl, ?_, ?_⟩
  · intro k acct hk
    obtain ⟨m, hm, hmk⟩ := hget k (systemAccountName, acct) hk
    have hne : systemAccountName ≠ dataAccountName := by decide
    unfold synthesize_meta at hm
    rw [if_neg hne, if_pos rfl] at hm
    simp only [Option.some.injEq] at hm
    rw [hmk, ← hm]
  · intro k acct hk
    obtain ⟨m, hm, hmk⟩ := hget k (dataAccountName, acct) hk
    unfold synthesize_meta at hm
    rw [if_pos rfl] at hm
    cases address with
    | none => simp at hm
    | some a =>
      simp only [Option.some.injEq] at hm
      refine ⟨a, rfl, ?_⟩
      rw [hmk, ← hm]

/-- C7: a Constructor instruction whose callee constructor is unknown is left
completely unchanged by the pass (its account list stays `None` and its address
operand is untouched), and a CFG with no blocks is skipped entirely: no block
is visited and no instruction is rewritten. -/
theorem unknown_callee_and_empty_cfg_skipped :
    (∀ (accounts address : Option Expression) (rest : Nat)
      (functions : List Function) (ast_no : Nat),
      process_instruction (Instr.Constructor accounts address none rest) functions ast_no
        = some (Instr.Constructor accounts address none rest)) ∧
    (∀ (name : String) (functions : List Function) (ast_no : Nat),
      traverse_cfg ⟨name, []⟩ functions ast_no = some ⟨name, []⟩ ∧
      traverse_trace ⟨name, []⟩ functions ast_no = some []) := by
  constructor
  · intro accounts address rest functions ast_no
    cases accounts <;> rfl
  · intro name functions ast_no
    exact ⟨rfl, rfl⟩

/-- C8: with the caller function present, the rewrite of a Constructor
succeeds exactly when every `DataAccount` entry of the callee spec comes with a
supplied address and every non-sentinel callee account name appears in the
caller's spec, and the rewrite of an AccountAccess succeeds exactly when its
name appears in the current function's spec; any failed lookup aborts the whole
compilation (`none`). -/
theorem pass_total_iff_lookups_succeed
    (functions : List Function) (ast_no : Nat) (caller : Function)
    (hcaller : functions[ast_no]? = some caller) :
    (∀ (cno : Nat) (callee : Function) (address : Option Expression) (rest : Nat),
      functions[cno]? = some callee →
      ((process_instruction (Instr.Constructor none address (some cno) rest)
          functions ast_no).isSome ↔
        ((∃ acct, (dataAccountName, acct) ∈ callee.solana_accounts) → address.isSome) ∧
        (∀ p ∈ callee.solana_accounts, p.1 ≠ dataAccountName → p.1 ≠ systemAccountName →
          ∃ q ∈ caller.solana_accounts, q.1 = p.1))) ∧
    (∀ (loc : Loc) (name : String) (var_no : Nat),
      (process_instruction (Instr.AccountAccess loc name var_no) functions ast_no).isSome ↔
        ∃ q ∈ caller.solana_accounts, q.1 = name) := by
  constructor
  · intro cno callee address rest hcallee
    have hproc : (process_instruction (Instr.Constructor none address (some cno) rest)
        functions ast_no).isSome
        = (collect_metas functions ast_no address callee.solana_accounts).isSome := by
      unfold process_instruction
      simp only [hcallee]
      cases hcm : collect_metas functions ast_no address callee.solana_accounts with
      | none => simp [hcm]
      | some metas => simp [hcm]
    rw [hproc, collect_metas_isSome]
    constructor
    · intro hall
      constructor
      · rintro ⟨acct, hmem⟩
        have := (synthesize_meta_isSome hcaller address _).mp (hall _ hmem)
        exact this.1 rfl
      · intro p hp hnd hns
        have := (synthesize_meta_isSome hcaller address _).mp (hall _ hp)
        rw [← get_index_of_isSome]
        exact this.2 hnd hns
    · rintro ⟨hdata, hrest⟩ e he
      rw [synthesize_meta_isSome hcaller]
      constructor
      · intro hd
        apply hdata
        refine ⟨e.2, ?_⟩
        have : e = (dataAccountName, e.2) := by
          rw [← hd]
        rw [← this]
        exact he
      · intro hnd hns
        rw [get_index_of_isSome]
        exact hrest e he hnd hns
  · intro loc name var_no
    unfold process_instruction
    rw [hcaller]
    cases hg : get_index_of caller.solana_accounts name with
    | none =>
      simp only [hg, Option.isSome_none, Bool.false_eq_true, false_iff]
      rw [← get_index_of_isSome, hg]
      simp
    | some idx =>
      simp only [hg, Option.isSome_some, true_iff]
      rw [← get_index_of_isSome, hg]
      simp

/-- C9: the Stylus (host-delegated storage) target implements only whole-word
storage load and store; every other storage capability method aborts with an
unimplemented condition at compile time, and the `hash` capability emits code
only for keccak256, aborting for every other algorithm. -/
theorem stylus_only_word_storage_and_keccak :
    (∀ op : StorageOp, stylus_storage_implemented op = true ↔
      (op = StorageOp.storage_load ∨ op = StorageOp.storage_store)) ∧
    (∀ h : HashTy, stylus_hash_emits h = true ↔ h = HashTy.Keccak256) := by
  constructor
  · intro op
    cases op <;> simp [stylus_storage_implemented]
  · intro h
    cases h <;> simp [stylus_hash_emits]

/-- C10: every AccountMeta struct literal the pass constructs has the fixed
field order address-reference, is-writable, is-signer; reading an account's
address from an AccountInfo value accesses struct member 0; and every element
of a synthesized AccountMeta array is such a literal. -/
theorem account_meta_field_order_and_key_member :
    (∀ (address : Expression) (is_signer is_writer : Bool),
      account_meta_literal address is_signer is_writer =
        Expression.StructLiteral Loc.Codegen (Ty.Struct StructType.AccountMeta)
          [address,
           Expression.BoolLiteral Loc.Codegen is_writer,
           Expression.BoolLiteral Loc.Codegen is_signer]) ∧
    (∀ account_info : Expression,
      retrieve_key_from_account_info account_info =
        Expression.Load Loc.Codegen (Ty.Ref (Ty.Address false))
          (Expression.StructMember Loc.Codegen (Ty.Ref (Ty.Ref (Ty.Address false)))
            account_info 0)) ∧
    (∀ (functions : List Function) (ast_no : Nat) (address : Option Expression)
      (entries : AccountSpec) (metas : List Expression),
      collect_metas functions ast_no address entries = some metas →
      ∀ m ∈ metas, ∃ a s w, m = account_meta_literal a s w) := by
  refine ⟨fun _ _ _ => rfl, fun _ => rfl, ?_⟩
  intro functions ast_no address entries metas hcm m hm
  obtain ⟨hlen, hget⟩ := collect_metas_spec hcm
  obtain ⟨k, hk⟩ := List.mem_iff_getElem?.mp hm
  have hklt : k < entries.length := by
    rw [← hlen]
    exact getElem?_some_lt hk
  obtain ⟨m2, hm2, hm2k⟩ := hget k (entries.get ⟨k, hklt⟩) (by simp)
  rw [hk] at hm2k
  cases hm2k
  exact synthesize_meta_shape hm2

/-- C3: the synthesis pass is idempotent on a contract: applied to its own
output namespace, it succeeds and changes nothing — Constructor instructions
whose account list is already `Some` are skipped and every AccountAccess was
already replaced by a Set on the first run. -/
theorem synthesis_pass_idempotent (contract_no : Nat) (ns ns' : Namespace)
    (h : manage_contract_accounts contract_no ns = some ns') :
    manage_contract_accounts contract_no ns' = some ns' :=
  manage_idem h

/-- C5: for every CFG, cyclic or not, a successful breadth-first traversal of
the pass visits exactly the blocks reachable from block 0 — each exactly once,
no unreachable block — and performs at most as many visits as there are
blocks (in particular it terminates, being a total function). -/
theorem traversal_visits_reachable_once
    (cfg : ControlFlowGraph) (functions : List Function) (ast_no : Nat)
    (trace : List Nat)
    (h : traverse_trace cfg functions ast_no = some trace) :
    trace.Nodup ∧
    (∀ i, i ∈ trace ↔ reachable cfg.blocks i) ∧
    trace.length ≤ cfg.blocks.length :=
  traverse_trace_spec cfg functions ast_no trace h

/-- C4 (amended): in every block the pass visits — the blocks reachable from
block 0 of a traversed CFG — no AccountAccess instruction remains; every
occurrence has become a Set instruction binding the subscript of the current
call's account vector at the name's index in the current function's own spec.
Unreachable blocks are never visited and keep their instructions. -/
theorem account_access_eliminated_in_visited_blocks
    (cfg : ControlFlowGraph) (functions : List Function) (ast_no : Nat)
    (cfg' : ControlFlowGraph) (trace : List Nat) (i : Nat)
    (h : traverse_cfg cfg functions ast_no = some cfg')
    (ht : traverse_trace cfg functions ast_no = some trace)
    (hi : i ∈ trace) :
    ∃ b b', cfg.blocks[i]? = some b ∧ cfg'.blocks[i]? = some b' ∧
      b'.edges = b.edges ∧ b'.instr.length = b.instr.length ∧
      (∀ instr ∈ b'.instr, ∀ (loc : Loc) (name : String) (v : Nat),
        instr ≠ Instr.AccountAccess loc name v) ∧
      (∀ (k : Nat) (loc : Loc) (name : String) (v : Nat),
        b.instr[k]? = some (Instr.AccountAccess loc name v) →
        ∃ f idx, functions[ast_no]? = some f ∧
          get_index_of f.solana_accounts name = some idx ∧
          b'.instr[k]? = some (Instr.Set loc v (index_accounts_vector idx))) := by
  obtain ⟨_, _, trace2, ht2, hproc, _⟩ := traverse_cfg_spec cfg functions ast_no cfg' h
  rw [ht] at ht2
  have htr : trace2 = trace := by
    simpa using ht2.symm
  subst htr
  obtain ⟨b, l, hb, hl, hb'⟩ := hproc i hi
  obtain ⟨hlen, hget⟩ := process_instrs_spec hl
  refine ⟨b, { instr := l, edges := b.edges }, hb, hb', rfl, hlen, ?_, ?_⟩
  · intro instr hmem loc name v
    obtain ⟨k, hk⟩ := List.mem_iff_getElem?.mp hmem
    have hklt : k < b.instr.length := by
      rw [← hlen]
      exact getElem?_some_lt hk
    obtain ⟨i0', hp0, hk0⟩ := hget k (b.instr.get ⟨k, hklt⟩) (by simp)
    rw [hk] at hk0
    cases hk0
    exact process_instruction_no_account_access hp0 loc name v
  · intro k loc name v hk
    obtain ⟨i', hp', hk'⟩ := hget k _ hk
    unfold process_instruction at hp'
    cases hf : functions[ast_no]? with
    | none => simp [hf] at hp'
    | some f =>
      cases hg : get_index_of f.solana_accounts name with
      | none => simp [hf, hg] at hp'
      | some idx =>
        simp only [hf, hg, Option.some.injEq] at hp'
        refine ⟨f, idx, rfl, hg, ?_⟩
        rw [hk', ← hp']

/-- C6: for every contract (whose function-to-CFG map is injective and whose
function CFGs are not the dispatch CFG), the pass rewrites every function's
CFG through `traverse_cfg` seeded with that function, and when the contract
has a constructor it additionally rewrites the dispatch CFG — found by exact
name match — through `traverse_cfg` seeded with the constructor identity. -/
theorem pass_traverses_functions_and_dispatch
    (contract_no : Nat) (ns ns' : Namespace) (contract : Contract)
    (h : manage_contract_accounts contract_no ns = some ns')
    (hc : ns.contracts[contract_no]? = some contract)
    (huniq : ∀ fno1 ∈ contract.functions, ∀ fno2 ∈ contract.functions, ∀ (j : Nat),
      lookup_all_functions contract.all_functions fno1 = some j →
      lookup_all_functions contract.all_functions fno2 = some j → fno1 = fno2)
    (hnodisp : ∀ fno ∈ contract.functions, ∀ (j : Nat) (c : ControlFlowGraph),
      lookup_all_functions contract.all_functions fno = some j →
      contract.cfg[j]? = some c → c.name ≠ SOLANA_DISPATCH_CFG_NAME) :
    ∃ contract', ns'.contracts[contract_no]? = some contract' ∧
      (∀ fno ∈ contract.functions,
        ∃ cfg_no c0 c1, lookup_all_functions contract.all_functions fno = some cfg_no ∧
          contract.cfg[cfg_no]? = some c0 ∧
          traverse_cfg c0 ns.functions fno = some c1 ∧
          contract'.cfg[cfg_no]? = some c1) ∧
      (∀ ctor : Nat,
        constructor_fold ns.functions none contract.functions = some (some ctor) →
        ∃ didx d0 d1,
          contract.cfg.findIdx? (fun cfg => cfg.name = SOLANA_DISPATCH_CFG_NAME)
            = some didx ∧
          contract.cfg[didx]? = some d0 ∧
          traverse_cfg d0 ns.functions ctor = some d1 ∧
          contract'.cfg[didx]? = some d1) := by
  obtain ⟨contract0, st, hc0, hfold, hbr⟩ := manage_some h
  rw [hc] at hc0
  injection hc0 with hce
  subst hce
  have hclt : contract_no < ns.contracts.length := getElem?_some_lt hc
  have hcn : constructor_fold ns.functions none contract.functions = some st.1 :=
    manage_fold_cn ns.functions contract.all_functions contract.functions
      (none, contract.cfg) st hfold
  have huniq2 : ∀ fno ∈ contract.functions, ∀ cfg_no,
      lookup_all_functions contract.all_functions fno = some cfg_no →
      ∀ fno2 ∈ contract.functions, fno2 ≠ fno →
        lookup_all_functions contract.all_functions fno2 ≠ some cfg_no := by
    intro fno hfno cfg_no hl fno2 hfno2 hne hcon
    exact hne (huniq fno2 hfno2 fno hfno cfg_no hcon hl)
  rcases hbr with ⟨hst1, rfl⟩ | ⟨ctor0, didx, dispatch, dispatch2, hst1, hdi, hd, htd, rfl⟩
  · refine ⟨{ contract with cfg := st.2 }, List.getElem?_set_self hclt, ?_, ?_⟩
    · intro fno hfno
      cases hl : lookup_all_functions contract.all_functions fno with
      | none =>
        obtain ⟨cfg_no, hl2, _⟩ := (manage_fold_spec ns.functions
          contract.all_functions contract.functions (none, contract.cfg) st
          hfold).2.2.1 fno hfno
        rw [hl2] at hl
        simp at hl
      | some cfg_no =>
        obtain ⟨c0, c1, hc0x, htc, hfinal⟩ := manage_fold_at ns.functions
          contract.all_functions contract.functions (none, contract.cfg) st fno cfg_no
          hfold hl hfno (huniq2 fno hfno cfg_no hl)
        exact ⟨cfg_no, c0, c1, rfl, hc0x, htc, hfinal⟩
    · intro ctor hctor
      rw [hcn] at hctor
      rw [hst1] at hctor
      simp at hctor
  · refine ⟨{ contract with cfg := st.2.set didx dispatch2 },
      List.getElem?_set_self hclt, ?_, ?_⟩
    all_goals {
      have hdlt : didx < st.2.length := getElem?_some_lt hd
      have hdname : dispatch.name = SOLANA_DISPATCH_CFG_NAME := by
        obtain ⟨k, a, hkj, hka, hpa⟩ := findIdx?_found _ st.2 0 didx hdi
        have hkd : k = didx := by omega
        subst hkd
        rw [hd] at hka
        have : a = dispatch := by simpa using hka.symm
        subst this
        simpa using hpa
      have hno_fun_disp : ∀ fno ∈ contract.functions,
          lookup_all_functions contract.all_functions fno ≠ some didx := by
        intro fno hfno hcon
        obtain ⟨corig, hcorig, hnameeq⟩ := manage_fold_names ns.functions
          contract.all_functions contract.functions (none, contract.cfg) st didx
          dispatch hfold hd
        exact hnodisp fno hfno didx corig hcon hcorig (by rw [← hnameeq, hdname])
      have hframe_d : st.2[didx]? = contract.cfg[didx]? :=
        manage_fold_frame ns.functions contract.all_functions contract.functions
          (none, contract.cfg) st didx hfold hno_fun_disp
      first
      | -- part 1: the per-function traversals
        (intro fno hfno
         cases hl : lookup_all_functions contract.all_functions fno with
         | none =>
           obtain ⟨cfg_no, hl2, _⟩ := (manage_fold_spec ns.functions
             contract.all_functions contract.functions (none, contract.cfg) st
             hfold).2.2.1 fno hfno
           rw [hl2] at hl
           simp at hl
         | some cfg_no =>
           obtain ⟨c0, c1, hc0x, htc, hfinal⟩ := manage_fold_at ns.functions
             contract.all_functions contract.functions (none, contract.cfg) st fno cfg_no
             hfold hl hfno (huniq2 fno hfno cfg_no hl)
           refine ⟨cfg_no, c0, c1, rfl, hc0x, htc, ?_⟩
           have hne : cfg_no ≠ didx := fun hcon => hno_fun_disp fno hfno (hcon ▸ hl)
           simp only
           rw [List.getElem?_set_ne (fun hcon => hne hcon.symm)]
           exact hfinal)
      | -- part 2: the dispatch traversal
        (intro ctor hctor
         rw [hcn, hst1] at hctor
         have hce : ctor = ctor0 := by simpa using hctor.symm
         subst hce
         obtain ⟨hlenf, _, _, _⟩ := manage_fold_spec ns.functions
           contract.all_functions contract.functions (none, contract.cfg) st hfold
         have hdi0 : contract.cfg.findIdx?
             (fun cfg => cfg.name = SOLANA_DISPATCH_CFG_NAME) = some didx := by
           rw [← hdi]
           refine (findIdx?_congr_pointwise _ st.2 contract.cfg hlenf ?_ 0).symm
           intro j
           cases hj : st.2[j]? with
           | none =>
             have : contract.cfg[j]? = none := by
               rw [List.getElem?_eq_none]
               rw [← hlenf]
               by_contra hcon
               push_neg at hcon
               rw [(List.getElem?_eq_some_iff.mpr ⟨hcon, rfl⟩ :
                 st.2[j]? = some _)] at hj
               simp at hj
             rw [this]
           | some c' =>
             obtain ⟨c, hcj, hname⟩ := manage_fold_names ns.functions
               contract.all_functions contract.functions (none, contract.cfg) st j c'
               hfold hj
             rw [hcj]
             simp [hname]
         have hd0 : contract.cfg[didx]? = some dispatch := by
           rw [← hframe_d]
           exact hd
         refine ⟨didx, dispatch, dispatch2, hdi0, hd0, htd, ?_⟩
         simp only
         exact List.getElem?_set_self hdlt)
    }

/-- A CFG consisting of one empty block is a fixed point of the traversal. -/
lemma traverse_cfg_single_empty (n : String) (f : List Function) (a : Nat) :
    traverse_cfg ⟨n, [⟨[], []⟩]⟩ f a = some ⟨n, [⟨[], []⟩]⟩ := by
  simp [traverse_cfg, traverse_blocks_cons, traverse_blocks_nil, push_edges, process_instrs]

/-- Example caller function: accounts `payer` then `vault`. -/
def exCaller : Function := ⟨[("payer", ⟨true, true⟩), ("vault", ⟨false, true⟩)], false⟩

/-- Example callee constructor: one non-sentinel account `vault`. -/
def exCallee : Function := ⟨[("vault", ⟨false, true⟩)], true⟩

/-- Example function table: function 0 is the caller, function 1 the callee. -/
def exFns : List Function := [exCaller, exCallee]

/-- Example callee constructor with both sentinel accounts. -/
def exCallee2 : Function :=
  ⟨[(dataAccountName, ⟨true, true⟩), (systemAccountName, ⟨true, true⟩)], true⟩

/-- Example function table for the sentinel case. -/
def exFns2 : List Function := [exCaller, exCallee2]

/-- Example namespace whose single function is a constructor and whose single
CFG is the dispatch CFG. -/
def exNs3 : Namespace :=
  ⟨[⟨[0], [(0, 0)], [⟨SOLANA_DISPATCH_CFG_NAME, [⟨[], []⟩]⟩]⟩], [⟨[], true⟩]⟩

/-- Example function table with one account `acc`. -/
def exF4 : List Function := [⟨[("acc", ⟨false, false⟩)], false⟩]

/-- Example CFG whose block 1 is unreachable from block 0 and contains an
AccountAccess instruction. -/
def exCfg4 : ControlFlowGraph :=
  ⟨"f", [⟨[], []⟩, ⟨[Instr.AccountAccess Loc.Codegen "acc" 0], []⟩]⟩

/-- Example namespace around `exCfg4`. -/
def exNs4 : Namespace := ⟨[⟨[0], [(0, 0)], [exCfg4]⟩], exF4⟩

/-- Example CFG with an AccountAccess instruction in the (reachable) entry
block. -/
def exCfg4b : ControlFlowGraph :=
  ⟨"g", [⟨[Instr.AccountAccess Loc.Codegen "acc" 3], []⟩]⟩

/-- Example CFG with a loop between blocks 0 and 1 and an unreachable
block 2. -/
def exCfg5 : ControlFlowGraph := ⟨"f", [⟨[], [1]⟩, ⟨[], [0, 1]⟩, ⟨[], []⟩]⟩

/-- Example contract with one function mapped to its own (non-dispatch) CFG. -/
def exC6 : Contract := ⟨[0], [(0, 0)], [⟨"a", [⟨[], []⟩]⟩]⟩

/-- Example namespace around `exC6`. -/
def exNs6 : Namespace := ⟨[exC6], [⟨[], false⟩]⟩

/-- Witness for C1 at a concrete caller/callee pair. -/
theorem constructor_accounts_callee_order_witness :
    ∃ metas,
      (Instr.Constructor (some (metas_vector [account_meta_literal
          (accounts_vector_key_at_index 1) false true])) none (some 1) 7)
        = Instr.Constructor (some (metas_vector metas)) none (some 1) 7 ∧
      metas.length = exCallee.solana_accounts.length ∧
      ∀ (k : Nat) (name : String) (acct : SolanaAccount),
        exCallee.solana_accounts[k]? = some (name, acct) →
        name ≠ dataAccountName → name ≠ systemAccountName →
        ∃ idx, get_index_of exCaller.solana_accounts name = some idx ∧
          metas[k]? = some (account_meta_literal (accounts_vector_key_at_index idx)
            acct.is_signer acct.is_writer) :=
  constructor_accounts_callee_order exFns 0 1 exCallee exCaller
    (some (Expression.Other 5)) 7
    (Instr.Constructor (some (metas_vector [account_meta_literal
      (accounts_vector_key_at_index 1) false true])) none (some 1) 7)
    (by simp [exFns]) (by simp [exFns])
    (by simp [process_instruction, exFns, exCallee, exCaller, collect_metas,
      synthesize_meta, get_index_of, dataAccountName, systemAccountName, metas_vector])

/-- Witness for C2 at a concrete callee with both sentinel accounts. -/
theorem constructor_sentinel_lowering_witness :
    ∃ metas,
      (Instr.Constructor (some (metas_vector
        [account_meta_literal (Expression.GetRef Loc.Codegen (Ty.Ref (Ty.Address false))
            (Expression.Other 5)) true true,
         account_meta_literal (Expression.GetRef Loc.Codegen (Ty.Ref (Ty.Address false))
            (Expression.NumberLiteral Loc.Codegen (Ty.Address false) 0)) false false]))
        none (some 1) 9)
        = Instr.Constructor (some (metas_vector metas)) none (some 1) 9 ∧
      (∀ (k : Nat) (acct : SolanaAccount),
        exCallee2.solana_accounts[k]? = some (systemAccountName, acct) →
        metas[k]? = some (account_meta_literal
          (Expression.GetRef Loc.Codegen (Ty.Ref (Ty.Address false))
            (Expression.NumberLiteral Loc.Codegen (Ty.Address false) 0)) false false)) ∧
      (∀ (k : Nat) (acct : SolanaAccount),
        exCallee2.solana_accounts[k]? = some (dataAccountName, acct) →
        ∃ a, (some (Expression.Other 5) : Option Expression) = some a ∧
          metas[k]? = some (account_meta_literal
            (Expression.GetRef Loc.Codegen (Ty.Ref (Ty.Address false)) a)
            acct.is_signer acct.is_writer)) :=
  constructor_sentinel_lowering exFns2 0 1 exCallee2 (some (Expression.Other 5)) 9
    (Instr.Constructor (some (metas_vector
      [account_meta_literal (Expression.GetRef Loc.Codegen (Ty.Ref (Ty.Address false))
          (Expression.Other 5)) true true,
       account_meta_literal (Expression.GetRef Loc.Codegen (Ty.Ref (Ty.Address false))
          (Expression.NumberLiteral Loc.Codegen (Ty.Address false) 0)) false false]))
      none (some 1) 9)
    (by simp [exFns2])
    (by simp [process_instruction, exFns2, exCallee2, exCaller, collect_metas,
      synthesize_meta, get_index_of, dataAccountName, systemAccountName, metas_vector])

/-- Witness for C3: the pass maps `exNs3` to itself, so a second run does
too. -/
theorem synthesis_pass_idempotent_witness :
    manage_contract_accounts 0 exNs3 = some exNs3 :=
  synthesis_pass_idempotent 0 exNs3 exNs3
    (by simp [manage_contract_accounts, manage_step, lookup_all_functions, exNs3,
      traverse_cfg_single_empty, Option.bind_eq_bind, SOLANA_DISPATCH_CFG_NAME])

/-- Counterexample to C4 as stated: after the pass runs on `exNs4`, the
AccountAccess instruction in the unreachable block 1 is still there. -/
theorem account_access_survives_in_unreachable_block :
    manage_contract_accounts 0 exNs4 = some exNs4 ∧
    ∃ contract cfg b,
      exNs4.contracts[0]? = some contract ∧ contract.cfg[0]? = some cfg ∧
      cfg.blocks[1]? = some b ∧
      Instr.AccountAccess Loc.Codegen "acc" 0 ∈ b.instr := by
  constructor
  · simp [manage_contract_accounts, manage_step, lookup_all_functions, exNs4, exCfg4, exF4,
      traverse_cfg, traverse_blocks_nil, traverse_blocks_cons, push_edges,
      process_instrs, process_instruction, Option.bind_eq_bind]
  · exact ⟨⟨[0], [(0, 0)], [exCfg4]⟩, exCfg4,
      ⟨[Instr.AccountAccess Loc.Codegen "acc" 0], []⟩,
      by simp [exNs4], by simp, by simp [exCfg4], by simp⟩

/-- Witness for the amended C4 at a concrete CFG whose entry block contains an
AccountAccess instruction. -/
theorem account_access_eliminated_in_visited_blocks_witness :
    ∃ b b', exCfg4b.blocks[0]? = some b ∧
      (ControlFlowGraph.mk "g"
        [⟨[Instr.Set Loc.Codegen 3 (index_accounts_vector 0)], []⟩]).blocks[0]? = some b' ∧
      b'.edges = b.edges ∧ b'.instr.length = b.instr.length ∧
      (∀ instr ∈ b'.instr, ∀ (loc : Loc) (name : String) (v : Nat),
        instr ≠ Instr.AccountAccess loc name v) ∧
      (∀ (k : Nat) (loc : Loc) (name : String) (v : Nat),
        b.instr[k]? = some (Instr.AccountAccess loc name v) →
        ∃ f idx, exF4[0]? = some f ∧
          get_index_of f.solana_accounts name = some idx ∧
          b'.instr[k]? = some (Instr.Set loc v (index_accounts_vector idx))) :=
  account_access_eliminated_in_visited_blocks exCfg4b exF4 0
    ⟨"g", [⟨[Instr.Set Loc.Codegen 3 (index_accounts_vector 0)], []⟩]⟩ [0] 0
    (by simp [traverse_cfg, exCfg4b, exF4, traverse_blocks_cons, traverse_blocks_nil,
      push_edges, process_instrs, process_instruction, get_index_of])
    (by simp [traverse_trace, exCfg4b, exF4, traverse_blocks_cons, traverse_blocks_nil,
      push_edges, process_instrs, process_instruction, get_index_of])
    (by simp)

/-- Witness for C5 at a concrete CFG with a loop and an unreachable block. -/
theorem traversal_visits_reachable_once_witness :
    ([0, 1] : List Nat).Nodup ∧
    (∀ i, i ∈ ([0, 1] : List Nat) ↔ reachable exCfg5.blocks i) ∧
    ([0, 1] : List Nat).length ≤ exCfg5.blocks.length :=
  traversal_visits_reachable_once exCfg5 [] 0 [0, 1]
    (by simp [traverse_trace, exCfg5, traverse_blocks_cons, traverse_blocks_nil,
      push_edges, process_instrs])

/-- Witness for C6 at a concrete one-function contract. -/
theorem pass_traverses_functions_and_dispatch_witness :
    ∃ contract', exNs6.contracts[0]? = some contract' ∧
      (∀ fno ∈ exC6.functions,
        ∃ cfg_no c0 c1, lookup_all_functions exC6.all_functions fno = some cfg_no ∧
          exC6.cfg[cfg_no]? = some c0 ∧
          traverse_cfg c0 exNs6.functions fno = some c1 ∧
          contract'.cfg[cfg_no]? = some c1) ∧
      (∀ ctor : Nat,
        constructor_fold exNs6.functions none exC6.functions = some (some ctor) →
        ∃ didx d0 d1,
          exC6.cfg.findIdx? (fun cfg => cfg.name = SOLANA_DISPATCH_CFG_NAME)
            = some didx ∧
          exC6.cfg[didx]? = some d0 ∧
          traverse_cfg d0 exNs6.functions ctor = some d1 ∧
          contract'.cfg[didx]? = some d1) :=
  pass_traverses_functions_and_dispatch 0 exNs6 exNs6 exC6
    (by simp [manage_contract_accounts, manage_step, lookup_all_functions, exNs6, exC6,
      traverse_cfg_single_empty, Option.bind_eq_bind])
    (by simp [exNs6])
    (by
      intro f1 h1 f2 h2 j _ _
      simp [exC6] at h1 h2
      omega)
    (by
      intro fno hfno j c hl hcfg
      simp only [exC6] at hfno hl hcfg
      simp only [List.mem_singleton] at hfno
      subst hfno
      simp only [lookup_all_functions, List.find?] at hl
      simp at hl
      subst hl
      simp at hcfg
      subst hcfg
      simp [SOLANA_DISPATCH_CFG_NAME])

/-- Witness for C8 at a concrete AccountAccess lookup. -/
theorem pass_total_iff_lookups_succeed_witness :
    (process_instruction (Instr.AccountAccess Loc.Codegen "vault" 3) exFns 0).isSome ↔
      ∃ q ∈ exCaller.solana_accounts, q.1 = "vault" :=
  (pass_total_iff_lookups_succeed exFns 0 exCaller (by simp [exFns])).2
    Loc.Codegen "vault" 3

/-- Witness for C10 at a concrete synthesized AccountMeta array. -/
theorem account_meta_field_order_and_key_member_witness :
    ∃ a s w, account_meta_literal (accounts_vector_key_at_index 1) false true
      = account_meta_literal a s w :=
  account_meta_field_order_and_key_member.2.2 exFns 0 (some (Expression.Other 5))
    exCallee.solana_accounts
    [account_meta_literal (accounts_vector_key_at_index 1) false true]
    (by simp [exFns, exCallee, exCaller, collect_metas, synthesize_meta,
      get_index_of, dataAccountName, systemAccountName])
    (account_meta_literal (accounts_vector_key_at_index 1) false true)
    (by simp)

end Solang
